import Mathlib

/-!
Verification of the xbar LogicHub plugin (`plugin/LHUB.py`) against its
natural-language specification.

The development shallowly embeds the relevant Python routines as executable
Lean functions:

* `splitTabsToColumns` models `Actions._split_tabs_to_columns` together with
  `Actions.read_clipboard` (claim C2);
* `displayNotificationError` / `failActionWithException` model the two failure
  funnels (claim C3);
* `jsonValidate` models `Actions._json_notify_and_exit_when_invalid` on top of
  an executable model `loads` of `json.loads` (claim C4);
* `configPostInit` models `Config.__post_init__` / `Config.get_config_main`
  (claim C5);
* `registeredActions` transcribes the `make_action` registrations of
  `Actions.__init__`, and `mainRun` models `main` (claims C6, C7);
* `stripJsonForSpark` models `Actions._strip_json_for_spark` together with a
  pure value-level model of `Reusable.dict_merge` (claim C8);
* `sortDictsAndLists` models `Actions._sort_dicts_and_lists`, with `dumps`
  modelling `json.dumps` and `pltE` modelling Python rich comparison on
  parsed JSON values (claim C9);
* a small heap model of Python dicts/lists exhibits the aliasing behaviour of
  `Reusable.dict_merge` (claim C10).

Python `str` values are modelled as Lean `String`/`List Char` (both are
sequences of unicode code points, compared pointwise by code point, matching
CPython semantics).  Machine-level `float` payloads are modelled as exact
rationals; the only facts the theorems use about them are decidable order,
equality, and an injective, deterministic textual rendering, all of which hold
for CPython floats.
-/

namespace LHUB

/-! ### Python string primitives -/

/-- The characters Python `str.strip()` removes (`string.whitespace`). -/
def pyWs (c : Char) : Bool :=
  c == ' ' || c == '\t' || c == '\n' || c == '\r' || c == '\x0b' || c == '\x0c'

/-- Python `s.strip()` on a list of characters. -/
def pyStrip (l : List Char) : List Char :=
  ((l.dropWhile pyWs).reverse.dropWhile pyWs).reverse

/-- `re.sub(r'\r', '', s)`: remove every carriage return. -/
def removeCR (l : List Char) : List Char :=
  l.filter (fun c => !(c == '\r'))

/-- Helper for `splitP`: `cur` is the current (reversed) token. -/
def splitPGo (p : Char → Bool) : List Char → List Char → List (List Char)
  | [], cur => if cur.isEmpty then [] else [cur.reverse]
  | c :: cs, cur =>
    if p c then
      if cur.isEmpty then splitPGo p cs [] else cur.reverse :: splitPGo p cs []
    else splitPGo p cs (c :: cur)

/-- Split a character list at (runs of) characters satisfying `p`, dropping
empty fields.  With `p := pyWs` this is Python `str.split()` with no
arguments. -/
def splitP (p : Char → Bool) (l : List Char) : List (List Char) :=
  splitPGo p l []

/-- Helper for `replRuns`: the boolean records whether we are inside a run of
separator characters that has already emitted its single replacement. -/
def replRunsGo (sep : Char → Bool) : Bool → List Char → List Char
  | _, [] => []
  | inRun, c :: cs =>
    if sep c then
      if inRun then replRunsGo sep true cs
      else ' ' :: replRunsGo sep true cs
    else c :: replRunsGo sep false cs

/-- `re.sub('[,"|\']+', ' ', s)`-style substitution: each maximal run of
characters satisfying `sep` is replaced by a single space. -/
def replRuns (sep : Char → Bool) (l : List Char) : List Char :=
  replRunsGo sep false l

/-! ### A model of Python `sorted` for totally ordered keys

CPython `list.sort` is a stable comparison sort driven by `<`.  For values on
which `<` is total (strings, in the uses below) any stable sorting algorithm
computes the same result; we use a stable insertion sort. -/

/-- Insert `y` into `l`, placing it before the first element that `y` is
strictly less than (hence after any elements it ties with: stable). -/
def pinsert (lt : α → α → Bool) (y : α) : List α → List α
  | [] => [y]
  | x :: xs => if lt y x then y :: x :: xs else x :: pinsert lt y xs

/-- Stable insertion sort ascending with respect to the strict order `lt`. -/
def pisort (lt : α → α → Bool) (l : List α) : List α :=
  l.foldl (fun acc y => pinsert lt y acc) []

/-! ### `Actions.read_clipboard` and `Actions._split_tabs_to_columns` -/

/-- `Actions.read_clipboard` with its default parameters
(`trim_input=True, lower=False, upper=False, strip_carriage_returns=True`):
strip surrounding whitespace, then remove carriage returns. -/
def readClipboard (clip : List Char) : List Char :=
  removeCR (pyStrip clip)

/-- The separator class of `re.sub('[,"|\']+', ' ', ...)` in
`_split_tabs_to_columns`: commas, double quotes, pipes and apostrophes. -/
def sepChar (c : Char) : Bool :=
  c == ',' || c == '"' || c == '|' || c == Char.ofNat 39

/-- Strict code-point order on tokens, the order used by Python
`sorted` on `str` values. -/
def strLt (a b : List Char) : Bool := decide (a < b)

/-- `Actions._split_tabs_to_columns(force_lower=False, sort=..., quote=...)`
acting on the raw clipboard text: replace separator runs by spaces, split on
whitespace (each fragment stripped, empties dropped — a no-op after a
whitespace split, kept to mirror the comprehension in the source), optionally
sort, then join with the quote/join patterns of the source. -/
def splitTabsToColumns (sort quote : Bool) (clip : List Char) : String :=
  let inputStr := readClipboard clip
  let inputStr := replRuns sepChar inputStr
  let columns := (splitP pyWs inputStr).map pyStrip
  let columns := columns.filter (fun t => !t.isEmpty)
  let columns := if sort then pisort strLt columns else columns
  let outParts := columns.map (fun t => String.mk t)
  if quote then "\"" ++ String.intercalate "\", \"" outParts ++ "\""
  else String.intercalate ", " outParts

/-- The "Tabs to commas & quotes (sorted)" action
(`Actions.logichub_tabs_to_columns_and_quotes_sorted`): the string written
back to the clipboard. -/
def tabsToColumnsQuotesSorted (clip : List Char) : String :=
  splitTabsToColumns true true clip

/-! ### Specification-side functions for claim C2

These are written from the words of the claim (and of its amendment), not from
the code: the tokens of the input are the maximal fragments delimited by
whitespace, tabs, commas, pipes or quote characters. -/

/-- The claim's separator class: whitespace (tabs included), commas, pipes and
quote characters. -/
def claimSep (c : Char) : Bool :=
  pyWs c || sepChar c

/-- Wrap each token in double quotes and join with comma-space, as the claim
describes the output shape. -/
def quoteJoin (toks : List (List Char)) : String :=
  "\"" ++ String.intercalate "\", \"" (toks.map String.mk) ++ "\""

/-- The output asserted by claim C2 as stated: the distinct tokens of the
input, sorted ascending, quoted and comma-space joined. -/
def claimOutputC2 (clip : List Char) : String :=
  quoteJoin (pisort strLt (splitP claimSep clip).dedup)

/-- The output of the amended claim C2: all tokens of the input after
carriage returns are removed (duplicates preserved), sorted ascending,
quoted and comma-space joined. -/
def amendedOutputC2 (clip : List Char) : String :=
  quoteJoin (pisort strLt (splitP claimSep (removeCR clip)))

/-! ### Splitting lemmas -/

theorem splitPGo_allP (p : Char → Bool) (s : List Char) (hs : ∀ c ∈ s, p c = true) :
    ∀ cur, splitPGo p s cur = if cur.isEmpty then [] else [cur.reverse] := by
  induction s with
  | nil => intro cur; rfl
  | cons c cs ih =>
    intro cur
    have hc : p c = true := hs c (by simp)
    have ihcs : ∀ cur, splitPGo p cs cur = if cur.isEmpty then [] else [cur.reverse] :=
      ih (fun d hd => hs d (by simp [hd]))
    by_cases hcur : cur.isEmpty
    · simp [splitPGo, hc, hcur, ihcs]
    · simp [splitPGo, hc, hcur, ihcs]

theorem splitPGo_append_allP (p : Char → Bool) (suf : List Char)
    (hs : ∀ c ∈ suf, p c = true) :
    ∀ (l cur : List Char), splitPGo p (l ++ suf) cur = splitPGo p l cur := by
  intro l
  induction l with
  | nil =>
    intro cur
    have h1 := splitPGo_allP p suf hs cur
    simp only [List.nil_append, h1]
    by_cases hcur : cur.isEmpty
    · simp [splitPGo, hcur]
    · simp [splitPGo, hcur]
  | cons c cs ih =>
    intro cur
    by_cases hc : p c
    · by_cases hcur : cur.isEmpty
      · simp [splitPGo, hc, hcur, ih]
      · simp [splitPGo, hc, hcur, ih]
    · simp [splitPGo, hc, ih]

theorem splitPGo_prefix_allP (p : Char → Bool) (pre : List Char)
    (hs : ∀ c ∈ pre, p c = true) (l : List Char) :
    splitPGo p (pre ++ l) [] = splitPGo p l [] := by
  induction pre with
  | nil => rfl
  | cons c cs ih =>
    have hc : p c = true := hs c (by simp)
    have := ih (fun d hd => hs d (by simp [hd]))
    simp [splitPGo, hc, this]

/-- Replacing each maximal separator run by one space and then splitting on
whitespace is the same as splitting on the union class directly. -/
theorem splitPGo_replRunsGo (l : List Char) :
    (∀ cur, splitPGo pyWs (replRunsGo sepChar false l) cur = splitPGo claimSep l cur) ∧
    (splitPGo pyWs (replRunsGo sepChar true l) [] = splitPGo claimSep l []) := by
  induction l with
  | nil => exact ⟨fun cur => rfl, rfl⟩
  | cons c cs ih =>
    obtain ⟨ihf, iht⟩ := ih
    have hspace : pyWs ' ' = true := by decide
    constructor
    · intro cur
      by_cases hsep : sepChar c
      · have hU : claimSep c = true := by simp [claimSep, hsep]
        by_cases hcur : cur.isEmpty
        · simp [replRunsGo, hsep, splitPGo, hspace, hU, hcur, iht]
        · simp [replRunsGo, hsep, splitPGo, hspace, hU, hcur, iht]
      · by_cases hws : pyWs c
        · have hU : claimSep c = true := by simp [claimSep, hws]
          by_cases hcur : cur.isEmpty
          · simp [replRunsGo, hsep, splitPGo, hws, hU, hcur, ihf]
          · simp [replRunsGo, hsep, splitPGo, hws, hU, hcur, ihf]
        · have hU : claimSep c = false := by
            simp [claimSep]
            exact ⟨by simpa using hws, by simpa using hsep⟩
          simp [replRunsGo, hsep, splitPGo, hws, hU, ihf]
    · by_cases hsep : sepChar c
      · have hU : claimSep c = true := by simp [claimSep, hsep]
        simp [replRunsGo, hsep, splitPGo, hU, iht]
      · by_cases hws : pyWs c
        · have hU : claimSep c = true := by simp [claimSep, hws]
          simp [replRunsGo, hsep, splitPGo, hws, hU, ihf]
        · have hU : claimSep c = false := by
            simp [claimSep]
            exact ⟨by simpa using hws, by simpa using hsep⟩
          simp [replRunsGo, hsep, splitPGo, hws, hU, ihf]

theorem splitP_replRuns (l : List Char) :
    splitP pyWs (replRuns sepChar l) = splitP claimSep l :=
  (splitPGo_replRunsGo l).1 []

/-- Every token produced by `splitPGo` is nonempty and free of separator
characters (provided the accumulator is). -/
theorem splitPGo_tokens (p : Char → Bool) :
    ∀ (l cur : List Char), (∀ c ∈ cur, p c = false) →
    ∀ t ∈ splitPGo p l cur, t ≠ [] ∧ ∀ c ∈ t, p c = false := by
  intro l
  induction l with
  | nil =>
    intro cur hcur t ht
    by_cases h : cur.isEmpty
    · simp [splitPGo, h] at ht
    · simp [splitPGo, h] at ht
      subst ht
      refine ⟨by simpa [List.isEmpty_iff] using h, ?_⟩
      intro c hc
      exact hcur c (by simpa using hc)
  | cons c cs ih =>
    intro cur hcur t ht
    by_cases hc : p c
    · by_cases hcurE : cur.isEmpty
      · simp only [splitPGo, hc, if_pos hcurE, if_true] at ht
        exact ih [] (by simp) t (by simpa using ht)
      · simp only [splitPGo, hc, if_neg hcurE, if_true] at ht
        rcases (by simpa using ht : t = cur.reverse ∨ t ∈ splitPGo p cs []) with h | h
        · subst h
          refine ⟨by simpa [List.isEmpty_iff] using hcurE, ?_⟩
          intro d hd
          exact hcur d (by simpa using hd)
        · exact ih [] (by simp) t h
    · simp only [splitPGo, hc, if_false, Bool.false_eq_true] at ht
      refine ih (c :: cur) ?_ t ht
      intro d hd
      rcases (by simpa using hd : d = c ∨ d ∈ cur) with h | h
      · subst h; simpa using hc
      · exact hcur d h

theorem pyStrip_of_noWs (t : List Char) (h : ∀ c ∈ t, pyWs c = false) :
    pyStrip t = t := by
  have h1 : t.dropWhile pyWs = t := by
    cases t with
    | nil => rfl
    | cons c cs =>
      rw [List.dropWhile_cons_of_neg]
      simp [h c (by simp)]
  have h2 : t.reverse.dropWhile pyWs = t.reverse := by
    cases hrev : t.reverse with
    | nil => rfl
    | cons c cs =>
      rw [List.dropWhile_cons_of_neg]
      have : c ∈ t := by
        have : c ∈ t.reverse := by rw [hrev]; simp
        simpa using this
      simp [h c this]
  simp [pyStrip, h1, h2]

/-- Characters surviving `removeCR` come from the original list. -/
theorem mem_removeCR (l : List Char) (c : Char) (h : c ∈ removeCR l) : c ∈ l := by
  simpa using (List.mem_filter.mp h).1

/-- Stripping surrounding whitespace before removing carriage returns does not
change the separator-class token list. -/
theorem splitP_removeCR_pyStrip (clip : List Char) :
    splitP claimSep (removeCR (pyStrip clip)) = splitP claimSep (removeCR clip) := by
  have hwsU : ∀ c : Char, pyWs c = true → claimSep c = true := by
    intro c hc; simp [claimSep, hc]
  have hfrontdecomp : clip.takeWhile pyWs ++ clip.dropWhile pyWs = clip :=
    List.takeWhile_append_dropWhile pyWs clip
  set front := clip.dropWhile pyWs with hfront
  have hfr : front.reverse.takeWhile pyWs ++ front.reverse.dropWhile pyWs = front.reverse :=
    List.takeWhile_append_dropWhile pyWs front.reverse
  have hfrontsplit : front = pyStrip clip ++ (front.reverse.takeWhile pyWs).reverse := by
    conv_lhs => rw [← List.reverse_reverse front, ← hfr]
    rw [List.reverse_append, pyStrip, hfront]
  have hsufws : ∀ c ∈ (front.reverse.takeWhile pyWs).reverse, pyWs c = true := by
    intro c hc
    exact List.mem_takeWhile_imp (by simpa using hc)
  have hprews : ∀ c ∈ clip.takeWhile pyWs, pyWs c = true := by
    intro c hc
    exact List.mem_takeWhile_imp hc
  have step1 : splitP claimSep (removeCR clip) = splitP claimSep (removeCR front) := by
    conv_lhs => rw [← hfrontdecomp]
    rw [removeCR, List.filter_append]
    exact splitPGo_prefix_allP claimSep _
      (fun c hc => hwsU c (hprews c (mem_removeCR _ c hc))) _
  have step2 : splitP claimSep (removeCR front) = splitP claimSep (removeCR (pyStrip clip)) := by
    conv_lhs => rw [hfrontsplit]
    rw [removeCR, List.filter_append]
    exact splitPGo_append_allP claimSep _
      (fun c hc => hwsU c (hsufws c (mem_removeCR _ c hc))) _ _
  rw [step1, step2]

/-! ### Claim C2 -/

/-- Claim C2 (amended): for every clipboard input, the
"Tabs to commas & quotes (sorted)" action writes exactly the tokens of the
input after carriage returns are removed — duplicates preserved — sorted in
ascending code-point order, each wrapped in double quotes and joined by
comma-space. -/
theorem tabsToColumnsQuotesSorted_eq_amended (clip : List Char) :
    tabsToColumnsQuotesSorted clip = amendedOutputC2 clip := by
  have htok := splitPGo_tokens pyWs (replRuns sepChar (readClipboard clip)) [] (by simp)
  have hmap : (splitP pyWs (replRuns sepChar (readClipboard clip))).map pyStrip
      = splitP pyWs (replRuns sepChar (readClipboard clip)) := by
    have : ∀ t ∈ splitP pyWs (replRuns sepChar (readClipboard clip)), pyStrip t = t := by
      intro t ht
      exact pyStrip_of_noWs t (htok t ht).2
    calc (splitP pyWs (replRuns sepChar (readClipboard clip))).map pyStrip
        = (splitP pyWs (replRuns sepChar (readClipboard clip))).map id :=
          List.map_congr_left this
      _ = _ := List.map_id _
  have hfilter : (splitP pyWs (replRuns sepChar (readClipboard clip))).filter
        (fun t => !t.isEmpty)
      = splitP pyWs (replRuns sepChar (readClipboard clip)) := by
    rw [List.filter_eq_self]
    intro t ht
    simpa [List.isEmpty_iff] using (htok t ht).1
  have hsplit : splitP pyWs (replRuns sepChar (readClipboard clip))
      = splitP claimSep (removeCR clip) := by
    rw [splitP_replRuns, readClipboard, splitP_removeCR_pyStrip]
  show splitTabsToColumns true true clip = amendedOutputC2 clip
  simp only [splitTabsToColumns, amendedOutputC2, quoteJoin, eq_self_iff_true, if_true]
  rw [hmap, hfilter, hsplit]

/-- Claim C2 as stated is false: the action does not deduplicate tokens
(input "a a" yields two quoted copies of "a"), and an interior carriage
return glues adjacent tokens together (input "a\rb" yields one token "ab"). -/
theorem tabsToColumnsQuotesSorted_claim_counterexample :
    tabsToColumnsQuotesSorted "a a".data ≠ claimOutputC2 "a a".data ∧
    tabsToColumnsQuotesSorted ("a\rb").data ≠ claimOutputC2 ("a\rb").data := by
  decide

/-! ### Claim C3: the failure funnels

The observable effects of a single plugin invocation: the clipboard, the
notifications shown (title, content), anything printed to stderr, audible
beeps, and the exit code (`none` while the process is still running). -/

structure PyEnv where
  clipboard : String
  notifications : List (String × String)
  stderrOut : List String
  beeps : Nat
  exitCode : Option Nat
deriving Repr, DecidableEq

/-- `Actions.title_default`. -/
def titleDefault : String := "LogicHub Helpers"

/-- `Actions.display_notification`: escape double quotes, then show an OS
notification with the given or default title. -/
def displayNotification (st : PyEnv) (content : String) (title : Option String) : PyEnv :=
  let content := content.replace "\"" "\\\""
  let t := title.getD titleDefault
  { st with notifications := st.notifications ++ [(t, content)] }

/-- `Actions.display_notification_error`: replace double quotes by single
quotes, beep, optionally print to stderr, notify, and exit with code 1. -/
def displayNotificationError (st : PyEnv) (content : String) (title : Option String)
    (printStderr : Bool) (errorPrefix : String) : PyEnv :=
  let content :=
    if content.contains '"' then content.replace "\"" (String.singleton (Char.ofNat 39))
    else content
  let st := { st with beeps := st.beeps + 1 }
  let err := errorPrefix ++ content
  let st := if printStderr then { st with stderrOut := st.stderrOut ++ [err] } else st
  let st := displayNotification st err title
  { st with exitCode := some 1 }

/-- `Actions.write_clipboard`: copy `text` to the clipboard and, unless
suppressed, notify when the config enables clipboard-update notifications. -/
def writeClipboard (notifyCfg : Bool) (st : PyEnv) (text : String)
    (skipNotification : Bool) : PyEnv :=
  let st := { st with clipboard := text }
  if notifyCfg && !skipNotification then displayNotification st "Clipboard updated" none
  else st

/-- `Actions.fail_action_with_exception`: copy the traceback to the clipboard
(notification suppressed), then fall into `display_notification_error` with an
empty prefix.  `excName` models `type(exception).__name__` when an exception
object is passed. -/
def failActionWithException (notifyCfg : Bool) (st : PyEnv) (trace : String)
    (excName : Option String) (printStderr : Bool) : PyEnv :=
  let st := writeClipboard notifyCfg st trace true
  let errorMsg :=
    match excName with
    | some n => "Failed with an exception (" ++ n ++ "): check traceback in clipboard"
    | none => "Failed with an exception: check traceback in clipboard"
  displayNotificationError st errorMsg none printStderr ""

/-- `Actions.read_clipboard` acting on the state. -/
def readClipboardStr (st : PyEnv) : String :=
  String.mk (readClipboard st.clipboard.data)

/-- `Actions._lh_read_clipboard_for_table_name`: a representative validation
failure path.  `re.search(r'>*?\s', s)` succeeds exactly when `s` contains a
whitespace character (the leading `>*?` is lazy and can match the empty
string).  On failure it calls `display_notification_error` with the default
prefix and never returns a value. -/
def lhReadClipboardForTableName (st : PyEnv) : PyEnv × Option String :=
  let inputStr := readClipboardStr st
  if inputStr.data.any pyWs then
    (displayNotificationError st "Invalid input; table name cannot contain spaces"
      none false "Failed with error: ", none)
  else (st, some inputStr)

/-- The invalid-key failure tail of `Actions.action_spark_from_json` (with
`block_invalid_keys=True`): the action writes the diagnostic banner
`"\n***** <error> *****\n\n"` to the clipboard itself (notification
suppressed) and only then funnels into `display_notification_error` with the
default arguments. -/
def sparkInvalidKeyFailure (notifyCfg : Bool) (st : PyEnv) (error : String) : PyEnv :=
  let st := writeClipboard notifyCfg st ("\n***** " ++ error ++ " *****\n\n") true
  displayNotificationError st error none false "Failed with error: "

/-- Claim C3 (amended): every failure notifies and exits 1, but the clipboard
diagnostic is not universal.  The exception funnel copies the stack trace to
the clipboard; the validation funnel `display_notification_error` never
touches the clipboard itself, so a validation failure carries a clipboard
diagnostic exactly when the failing action wrote one before funnelling — as
`action_spark_from_json`'s invalid-key check does (third conjunct), and the
table-name validation does not (see the counterexample). -/
theorem failure_paths_amended :
    (∀ (st : PyEnv) (content : String) (title : Option String)
        (printStderr : Bool) (errorPrefix : String),
      (displayNotificationError st content title printStderr errorPrefix).exitCode = some 1 ∧
      (displayNotificationError st content title printStderr errorPrefix).clipboard
        = st.clipboard ∧
      (displayNotificationError st content title printStderr errorPrefix).notifications.length
        = st.notifications.length + 1) ∧
    (∀ (notifyCfg : Bool) (st : PyEnv) (trace : String) (excName : Option String)
        (printStderr : Bool),
      (failActionWithException notifyCfg st trace excName printStderr).exitCode = some 1 ∧
      (failActionWithException notifyCfg st trace excName printStderr).clipboard = trace ∧
      st.notifications.length
        < (failActionWithException notifyCfg st trace excName printStderr).notifications.length) ∧
    (∀ (notifyCfg : Bool) (st : PyEnv) (error : String),
      (sparkInvalidKeyFailure notifyCfg st error).exitCode = some 1 ∧
      (sparkInvalidKeyFailure notifyCfg st error).clipboard
        = "\n***** " ++ error ++ " *****\n\n" ∧
      st.notifications.length
        < (sparkInvalidKeyFailure notifyCfg st error).notifications.length) := by
  refine ⟨?_, ?_, ?_⟩
  · intro st content title printStderr errorPrefix
    refine ⟨rfl, ?_, ?_⟩ <;>
      simp [displayNotificationError, displayNotification] <;>
      cases printStderr <;> simp
  · intro notifyCfg st trace excName printStderr
    refine ⟨rfl, ?_, ?_⟩
    · simp only [failActionWithException, displayNotificationError, displayNotification,
        writeClipboard]
      cases notifyCfg <;> cases printStderr <;> simp
    · simp only [failActionWithException, displayNotificationError, displayNotification,
        writeClipboard]
      cases notifyCfg <;> cases printStderr <;> simp
  · intro notifyCfg st error
    refine ⟨rfl, ?_, ?_⟩
    · simp only [sparkInvalidKeyFailure, displayNotificationError, displayNotification,
        writeClipboard]
      cases notifyCfg <;> simp
    · simp only [sparkInvalidKeyFailure, displayNotificationError, displayNotification,
        writeClipboard]
      cases notifyCfg <;> simp

/-- The initial state of the counterexample run: the user clicked a
table-name action with "my table" in the clipboard. -/
def tableNameFailureState : PyEnv :=
  { clipboard := "my table", notifications := [], stderrOut := [], beeps := 0,
    exitCode := none }

/-- Claim C3 as stated is false: this failing invocation (a validation
failure in `_lh_read_clipboard_for_table_name`) notifies and exits 1 but
copies nothing to the clipboard — the clipboard still holds the original
input, not a diagnostic. -/
theorem validation_failure_counterexample :
    (lhReadClipboardForTableName tableNameFailureState).2 = none ∧
    (lhReadClipboardForTableName tableNameFailureState).1.exitCode = some 1 ∧
    (lhReadClipboardForTableName tableNameFailureState).1.notifications.length = 1 ∧
    (lhReadClipboardForTableName tableNameFailureState).1.clipboard = "my table" := by
  decide

/-! ### Claim C5: `Config.__post_init__`

The INI file is modelled as its section list (`configobj` yields a mapping of
section name to key/value strings; a missing or empty file yields an empty,
hence falsy, mapping).  Environment inputs: the `USER` variable and the
result of the `defaults read` theme probe (`none` when it printed nothing). -/

/-- A value `Reusable.convert_boolean` can return: a real boolean, or the
original string when it matches neither yes/true nor no/false. -/
inductive ConvVal where
  | asBool (b : Bool)
  | asStr (s : String)
deriving Repr, DecidableEq

/-- `Reusable.convert_boolean` on a string input. -/
def convertBoolean (s : String) : ConvVal :=
  let v := String.mk ((pyStrip s.data).map Char.toLower)
  if v = "yes" || v = "true" then .asBool true
  else if v = "no" || v = "false" then .asBool false
  else .asStr s

/-- The fields `Config.get_config_main` assembles. -/
structure ConfigMainM where
  repoPath : Option String
  localUser : Option String
  osTheme : String
  statusBarStyle : String
  statusBarLabel : String
  statusBarIconSize : String
  statusBarTextColor : String
  clipboardUpdateNotifications : ConvVal
  debugOutputEnabled : ConvVal
deriving Repr, DecidableEq

/-- Outcome of constructing `Config`: a clean `sys.exit`, an uncaught
`KeyError` from the logo lookup, or successful completion. -/
inductive ConfigResult where
  | exited (msg : String) (code : Nat)
  | keyError (key : String)
  | ok (main : ConfigMainM) (statusBarLogo : String)
deriving Repr, DecidableEq

/-- `Config.get_config_main`: defaults applied to the `main` section. -/
def getConfigMain (mainKw : List (String × String)) (envUser : Option String)
    (detectedTheme : Option String) : ConfigMainM :=
  { repoPath := mainKw.lookup "repo_path"
    localUser := (mainKw.lookup "local_user").orElse (fun _ => envUser)
    osTheme := (mainKw.lookup "os_theme").getD (detectedTheme.getD "Light")
    statusBarStyle := (mainKw.lookup "status_bar_style").getD "logo"
    statusBarLabel := (mainKw.lookup "status_bar_label").getD "LHUB"
    statusBarIconSize := (mainKw.lookup "status_bar_icon_size").getD "large"
    statusBarTextColor := (mainKw.lookup "status_bar_text_color").getD "black"
    clipboardUpdateNotifications :=
      match mainKw.lookup "clipboard_update_notifications" with
      | some s => convertBoolean s
      | none => .asBool false
    debugOutputEnabled :=
      match mainKw.lookup "debug_output_enabled" with
      | some s => convertBoolean s
      | none => .asBool false }

/-- `logos_by_os_theme` of `Config.__post_init__`. -/
def logosByOsTheme (theme : String) : Option (List (String × String)) :=
  if theme = "Dark" then
    some [("small", "LH_menu_status_small.png"), ("large", "LH_menu_status_large_dark.png"),
          ("xl", "LH_menu_status_xlarge_dark.png")]
  else if theme = "Light" then
    some [("small", "LH_menu_status_small.png"), ("large", "LH_menu_status_large.png"),
          ("xl", "LH_menu_status_xlarge.png")]
  else none

/-- `logos_by_os_theme[os_theme][status_bar_icon_size]`: the theme lookup
raises first, then the icon lookup; `error` carries the offending key. -/
def statusBarLogoLookup (theme icon : String) : Except String String :=
  match logosByOsTheme theme with
  | none => .error theme
  | some table =>
    match table.lookup icon with
    | none => .error icon
    | some logo => .ok logo

/-- `Config.__post_init__`: exit 1 when the INI mapping is empty; load the
`main` section with defaults; exit 1 when `repo_path` is unset or empty;
otherwise look up the status-bar logo, raising `KeyError` for an unknown
theme or icon size. -/
def configPostInit (sections : List (String × List (String × String)))
    (envUser : Option String) (detectedTheme : Option String) : ConfigResult :=
  if sections.isEmpty then .exited "xbar_logichub.ini not found" 1
  else
    let mainKw := (sections.lookup "main").getD []
    let mainCfg := getConfigMain mainKw envUser detectedTheme
    if (mainCfg.repoPath.getD "") = "" then
      .exited "repo_path not set in xbar_logichub.ini" 1
    else
      match statusBarLogoLookup mainCfg.osTheme mainCfg.statusBarIconSize with
      | .error k => .keyError k
      | .ok logo => .ok mainCfg logo

/-! Specification-side predicates for claim C5, written from the claim's and
the amendment's words. -/

/-- The claim's premise: the loaded `main` section carries a non-empty
`repo_path` value (an empty or missing INI file cannot). -/
def repoPathDefined (sections : List (String × List (String × String))) : Bool :=
  !sections.isEmpty &&
    !((((sections.lookup "main").getD []).lookup "repo_path").getD "").isEmpty

/-- The theme the constructor ends up using (config value, else probe result,
else "Light"). -/
def resolvedTheme (sections : List (String × List (String × String)))
    (detectedTheme : Option String) : String :=
  ((((sections.lookup "main").getD []).lookup "os_theme")).getD (detectedTheme.getD "Light")

/-- The icon size the constructor ends up using. -/
def resolvedIcon (sections : List (String × List (String × String))) : String :=
  ((((sections.lookup "main").getD []).lookup "status_bar_icon_size")).getD "large"

/-- The amendment's extra premise: the resolved theme and icon size select a
known logo. -/
def logoSelectable (sections : List (String × List (String × String)))
    (detectedTheme : Option String) : Bool :=
  (resolvedTheme sections detectedTheme = "Dark"
      || resolvedTheme sections detectedTheme = "Light")
    && (resolvedIcon sections = "small" || resolvedIcon sections = "large"
      || resolvedIcon sections = "xl")

def ConfigResult.isOkR : ConfigResult → Bool
  | .ok _ _ => true
  | _ => false

def ConfigResult.isExit1 : ConfigResult → Bool
  | .exited _ 1 => true
  | _ => false

def ConfigResult.isKeyError : ConfigResult → Bool
  | .keyError _ => true
  | _ => false

/-- Claim C5 (amended): construction exits with code 1 exactly when no
non-empty `repo_path` is defined; with `repo_path` defined it completes
exactly when the resolved theme/icon select a known logo, and otherwise
raises an uncaught `KeyError`. -/
theorem configPostInit_amended (sections : List (String × List (String × String)))
    (envUser : Option String) (detectedTheme : Option String) :
    ((configPostInit sections envUser detectedTheme).isExit1 = !repoPathDefined sections) ∧
    ((configPostInit sections envUser detectedTheme).isOkR
      = (repoPathDefined sections && logoSelectable sections detectedTheme)) ∧
    ((configPostInit sections envUser detectedTheme).isKeyError
      = (repoPathDefined sections && !logoSelectable sections detectedTheme)) := by
  by_cases hempty : sections.isEmpty
  · simp [configPostInit, hempty, repoPathDefined, ConfigResult.isExit1,
      ConfigResult.isOkR, ConfigResult.isKeyError]
  · have hproj1 : (getConfigMain ((sections.lookup "main").getD []) envUser
        detectedTheme).repoPath = ((sections.lookup "main").getD []).lookup "repo_path" := rfl
    have hproj2 : (getConfigMain ((sections.lookup "main").getD []) envUser
        detectedTheme).osTheme = resolvedTheme sections detectedTheme := rfl
    have hproj3 : (getConfigMain ((sections.lookup "main").getD []) envUser
        detectedTheme).statusBarIconSize = resolvedIcon sections := rfl
    simp only [configPostInit, hproj1, hproj2, hproj3]
    rw [if_neg hempty]
    by_cases hrepo : ((((sections.lookup "main").getD []).lookup "repo_path").getD "") = ""
    · rw [if_pos hrepo]
      have hdef : repoPathDefined sections = false := by
        have h0 : ("" : String).isEmpty = true := rfl
        simp [repoPathDefined, hrepo, h0]
      simp [hdef, ConfigResult.isExit1, ConfigResult.isOkR, ConfigResult.isKeyError]
    · rw [if_neg hrepo]
      have hdef : repoPathDefined sections = true := by
        simp only [repoPathDefined, Bool.and_eq_true, Bool.not_eq_true']
        refine ⟨by simpa using hempty, ?_⟩
        rw [Bool.eq_false_iff]
        intro hc
        exact hrepo ((String.isEmpty_iff _).mp hc)
      rw [hdef]
      have hchar : (statusBarLogoLookup (resolvedTheme sections detectedTheme)
          (resolvedIcon sections)).isOk = logoSelectable sections detectedTheme := by
        set th := resolvedTheme sections detectedTheme with hth
        set ic := resolvedIcon sections with hic
        simp only [statusBarLogoLookup, logosByOsTheme, logoSelectable, ← hth, ← hic]
        by_cases hD : th = "Dark"
        · by_cases h1 : ic = "small"
          · simp [hD, h1, List.lookup, Except.isOk, Except.toBool]
          · by_cases h2 : ic = "large"
            · simp [beq_iff_eq, hD, h1, h2, List.lookup, Except.isOk, Except.toBool]
            · by_cases h3 : ic = "xl"
              · simp [beq_iff_eq, hD, h1, h2, h3, List.lookup, Except.isOk, Except.toBool]
              · have e1 : (ic == "small") = false := beq_eq_false_iff_ne.mpr h1
                have e2 : (ic == "large") = false := beq_eq_false_iff_ne.mpr h2
                have e3 : (ic == "xl") = false := beq_eq_false_iff_ne.mpr h3
                simp [hD, h1, h2, h3, e1, e2, e3, List.lookup, Except.isOk, Except.toBool]
        · by_cases hL : th = "Light"
          · by_cases h1 : ic = "small"
            · simp [hD, hL, h1, List.lookup, Except.isOk, Except.toBool]
            · by_cases h2 : ic = "large"
              · simp [beq_iff_eq, hD, hL, h1, h2, List.lookup, Except.isOk, Except.toBool]
              · by_cases h3 : ic = "xl"
                · simp [beq_iff_eq, hD, hL, h1, h2, h3, List.lookup, Except.isOk,
                    Except.toBool]
                · have e1 : (ic == "small") = false := beq_eq_false_iff_ne.mpr h1
                  have e2 : (ic == "large") = false := beq_eq_false_iff_ne.mpr h2
                  have e3 : (ic == "xl") = false := beq_eq_false_iff_ne.mpr h3
                  simp [hD, hL, h1, h2, h3, e1, e2, e3, List.lookup, Except.isOk,
                    Except.toBool]
          · simp [hD, hL, Except.isOk, Except.toBool]
      cases hres : statusBarLogoLookup (resolvedTheme sections detectedTheme)
          (resolvedIcon sections) with
      | error k =>
        rw [hres] at hchar
        simp only [Except.isOk, Except.toBool] at hchar
        simp [← hchar, ConfigResult.isExit1, ConfigResult.isOkR, ConfigResult.isKeyError]
      | ok logo =>
        rw [hres] at hchar
        simp only [Except.isOk, Except.toBool] at hchar
        simp [← hchar, ConfigResult.isExit1, ConfigResult.isOkR, ConfigResult.isKeyError]

/-- Claim C5 as stated is false: with `repo_path` set but `os_theme = "blue"`
the constructor neither completes nor exits cleanly — the logo lookup raises
`KeyError`. -/
theorem configPostInit_claim_counterexample :
    configPostInit [("main", [("repo_path", "/repo"), ("os_theme", "blue")])] none none
      = .keyError "blue" := by
  decide


/-! ### Claims C6 and C7: action registration and the `--list` flag

`registeredActions` transcribes, in order, every `make_action` call of
`Actions.__init__` that passes a callback (the single `action=None` entry,
"Pretty Print SQL options", only prints a menu line and registers nothing;
no call passes an explicit `action_id`).  Each entry is the action name and
the name of the bound method, as it appears in
`str(bound method)` = "<bound method Actions.<name> of ...>". -/

def registeredActions : List (String × String) := [
  ("Pretty Print SQL", "logichub_pretty_print_sql"),
  ("Wrapped at 80 characters", "logichub_pretty_print_sql_wrapped"),
  ("Compact", "logichub_pretty_print_sql_compact"),
  ("Tabs to commas", "logichub_tabs_to_columns"),
  ("Tabs to commas (force lowercase)", "logichub_tabs_to_columns_lowercase"),
  ("Tabs to commas (sorted)", "logichub_tabs_to_columns_sorted"),
  ("Tabs to commas (sorted, force lowercase)", "logichub_tabs_to_columns_sorted_lowercase"),
  ("Tabs to commas & quotes", "logichub_tabs_to_columns_and_quotes"),
  ("Tabs to commas & quotes (force lowercase)", "logichub_tabs_to_columns_and_quotes_lowercase"),
  ("Tabs to commas & quotes (sorted)", "logichub_tabs_to_columns_and_quotes_sorted"),
  ("Tabs to commas & quotes (sorted, force lowercase)", "logichub_tabs_to_columns_and_quotes_sorted_lowercase"),
  ("SQL New (from table name)", "logichub_sql_start_from_table_name"),
  ("SQL New (without table name)", "logichub_sql_start_without_table_name"),
  ("SQL New with Integration Error Check (from table name)", "logichub_sql_start_with_integ_error_check"),
  ("SQL New with Integration Error Check (without table name)", "logichub_sql_start_with_integ_error_check_without_table_name"),
  ("SQL Start from spaced strings", "logichub_sql_start_from_tabs"),
  ("SQL Start from spaced strings (sorted)", "logichub_sql_start_from_tabs_sorted"),
  ("SQL Start from spaced strings (distinct)", "logichub_sql_start_from_tabs_distinct"),
  ("SQL Start from spaced strings (join with left columns)", "logichub_sql_start_from_tabs_join_left"),
  ("SQL Start from spaced strings (join, left columns only)", "logichub_tabs_to_columns_left_join"),
  ("SQL Start from spaced strings (join with right columns)", "logichub_sql_start_from_tabs_join_right"),
  ("SQL Start from spaced strings (join, right columns only)", "logichub_tabs_to_columns_right_join"),
  ("Clipboard to LH-friendly static string", "action_logichub_clipboard_to_static_string"),
  ("from_json: full", "action_spark_from_json"),
  ("from_json: full, allow invalid keys", "action_spark_from_json_allow_invalid"),
  ("from_json: no recursion", "action_spark_from_json_non_recursive"),
  ("from_json: no recursion, allow invalid keys", "action_spark_from_json_non_recursive_allow_invalid"),
  ("schema_of_json: Create column from JSON clipboard", "action_json_to_schema_of_json"),
  ("Reformat DSL command [simple]", "logichub_dsl_reformat_simple"),
  ("BETA: Reformat DSL command [pretty print SQL]", "logichub_dsl_reformat_pretty"),
  ("Integration Error Check: forceFail and dropColumns", "logichub_dsl_integ_error_check_forceFail_and_dropColumns"),
  ("Integration Error Check: forceFail and dropColumns (without result)", "logichub_dsl_integ_error_check_forceFail_and_dropColumns_without_result"),
  ("Add batch info and drop temporary column (from table name)", "logichub_dsl_batch_info"),
  ("Event File URL from File Name", "logichub_event_file_url_from_file_name"),
  ("Event File URL path (static)", "logichub_event_file_url_static"),
  ("addExecutionMetadata", "logichub_operator_start_addExecutionMetadata"),
  ("dropColumns", "logichub_operator_start_dropColumns"),
  ("ensureTableHasColumns", "logichub_operator_start_ensureTableHasColumns"),
  ("fieldnamesHistogram", "logichub_operator_start_fieldnamesHistogram"),
  ("fetchAlerts (with parent table)", "logichub_operator_start_fetchAlerts_with_table"),
  ("fetchAlerts (without parent table)", "logichub_operator_start_fetchAlerts_no_table"),
  ("forceFail", "logichub_operator_start_forceFail"),
  ("getFieldnames", "logichub_operator_start_getFieldnames"),
  ("jsonToColumns", "logichub_operator_start_jsonToColumns"),
  ("unionAll", "logichub_operator_start_unionAll"),
  ("waitForMillis", "logichub_operator_start_waitForMillis"),
  ("autoJoin", "logichub_operator_start_autoJoin"),
  ("autoJoinTables", "logichub_operator_start_autoJoinTables"),
  ("joinTables", "logichub_operator_start_joinTables"),
  ("appendToList", "logichub_operator_start_appendToList"),
  ("appendToListIfNotExist", "logichub_operator_start_appendToListIfNotExist"),
  ("loadList (with filter)", "logichub_operator_start_loadList_with_filter"),
  ("loadList (no filter)", "logichub_operator_start_loadList_without_filter"),
  ("queryFromList", "logichub_operator_start_queryFromList"),
  ("replaceList", "logichub_operator_start_replaceList"),
  ("selectivelyDeleteFromList", "logichub_operator_start_selectivelyDeleteFromList"),
  ("Sanitize playbook JSON for comparison (from clipboard)", "sanitize_logichub_json"),
  ("Runtime Stats Sort JSON", "logichub_runtime_stats_to_json"),
  ("Runtime Stats to CSV", "logichub_runtime_stats_to_csv"),
  ("Add myself to docker group", "shell_lh_host_fix_add_self_to_docker_group"),
  ("Own Instance Version", "logichub_shell_own_instance_version"),
  ("Recent UI user activity", "logichub_check_recent_user_activity_v2"),
  ("Recent UI user activity (OLD VERSION)", "logichub_check_recent_user_activity_v1"),
  ("Stop and Start All Services", "logichub_stop_and_start_services_in_one_line"),
  ("Integration Name from Digest or Container Name", "logichub_integration_name_from_digest_or_container_name"),
  ("lh-monitoring repo", "shell_lh_host_path_to_lh_monitoring_repo"),
  ("node_data cache", "shell_lh_host_path_to_node_data"),
  ("service container data", "shell_lh_host_path_to_service_container_volume"),
  ("List Edited Descriptors", "lh_service_shell_list_edited_descriptors"),
  ("service bash", "action_docker_service_bash"),
  ("psql shell", "action_docker_psql_shell"),
  ("psql query without shell", "action_docker_psql_without_shell"),
  ("psql query without shell (query from clipboard)", "action_docker_psql_without_shell_from_clipboard"),
  ("psql query without shell, json output", "action_docker_psql_without_shell_json"),
  ("psql query without shell, json output (query from clipboard)", "action_docker_psql_without_shell_json_from_clipboard"),
  ("All Flows, (latest versions only)", "db_postgres_latest_flows"),
  ("All Flows [old v1], (latest versions only)", "db_postgres_latest_flows_v1"),
  ("Summarize Flows (latest versions only)", "db_postgres_summarize_latest_flows"),
  ("Summarize Flows Lite (latest versions only)", "db_postgres_summarize_latest_flows_lite"),
  ("All Modules, (latest versions only)", "db_postgres_latest_modules"),
  ("List Descriptors w/ Docker Images", "db_postgres_descriptors_and_docker_images"),
  ("List Instances w/ Docker Images", "db_postgres_instances_and_docker_images"),
  ("List Instances w/ Docker Images (extended)", "db_postgres_instances_and_docker_images_extended"),
  ("List Instances w/ Docker Images, exclude image in clipboard", "db_postgres_instances_and_docker_images_exclude_image"),
  ("List Instances w/ Docker Images (extended), exclude image in clipboard", "db_postgres_instances_and_docker_images_extended_exclude_image"),
  ("List custom integration digests", "db_postgres_custom_integrations_active_digests"),
  ("List custom integration digests (from bash)", "db_postgres_custom_integrations_active_digests_from_bash"),
  ("List executing streams/batches", "db_postgres_currently_running_streams"),
  ("List users with pending password reset", "db_postgres_users_pending_password_reset"),
  ("Estimate Total Size of a Case (from case ID)", "db_postgres_cases_total_size"),
  ("integrationsFiles path: LogicHub host", "clipboard_integration_files_path_logichub_host"),
  ("integrationsFiles path: LogicHub host (from file name)", "clipboard_integration_files_path_logichub_host_from_file_name"),
  ("integrationsFiles path: integration containers", "clipboard_integration_files_path_integration_containers"),
  ("integrationsFiles path: integration containers (from file name)", "clipboard_integration_files_path_integration_containers_from_file_name"),
  ("integrationsFiles path: service container", "clipboard_integrationsFiles_path_service_container"),
  ("integrationsFiles path: service container (from file name)", "clipboard_integrationsFiles_path_service_container_from_file_name"),
  ("Copy descriptor file using its image tag", "copy_descriptor_file_using_image_tag"),
  ("Copy descriptor file using its image tag, then edit original", "copy_descriptor_file_using_image_tag_then_edit_original"),
  ("Open bash in docker container by product name", "open_integration_container_by_product_name"),
  ("Prep custom integration container for local editing", "prep_custom_integration_container"),
  ("Visual inspection", "logichub_upgrade_prep_verifications"),
  ("Backups (run as logichub/centos!)", "logichub_upgrade_prep_backups"),
  ("Backups (skip logs)", "logichub_upgrade_prep_backups_skip_logs"),
  ("Backups Lite (skip logs and LH backup script)", "logichub_upgrade_prep_backups_lite"),
  ("Upgrade Command (from milestone version in clipboard)", "logichub_upgrade_command_from_clipboard"),
  ("Upgrade Command (static)", "logichub_upgrade_command_static"),
  ("Upgrade Command with Backup Script (from milestone version in clipboard)", "logichub_upgrade_command_from_clipboard_with_backup_script"),
  ("Upgrade Command with Backup Script (static)", "logichub_upgrade_command_static_with_backup_script")]

/-- Python `\w` on the ASCII action names: letters, digits, underscore. -/
def wordChar (c : Char) : Bool :=
  c.isAlphanum || c == '_'

/-- `re.sub(r'\W', "_", name)`: the derived action identifier. -/
def sanitizeId (name : String) : String :=
  String.mk (name.data.map (fun c => if wordChar c then c else '_'))

/-- One entry of `Actions.action_list` (`ActionObject`; the callback is
identified by its method name). -/
structure ActionObjectM where
  id : String
  name : String
  action : String
deriving Repr, DecidableEq

/-- Python dict assignment `d[k] = v`: replace in place if the key exists,
else append. -/
def dictAssign (m : List (String × ActionObjectM)) (k : String) (v : ActionObjectM) :
    List (String × ActionObjectM) :=
  if m.any (fun p => p.1 == k) then m.map (fun p => if p.1 == k then (k, v) else p)
  else m ++ [(k, v)]

/-- `Actions.action_list` as built by the `make_action` calls: for each
registration, derive the identifier and assign into the dict. -/
def actionListM : List (String × ActionObjectM) :=
  registeredActions.foldl
    (fun m p => dictAssign m (sanitizeId p.1) ⟨sanitizeId p.1, p.1, p.2⟩) []

/-- Strict code-point comparison of two character lists: Python `str`
comparison is exactly lexicographic comparison of code-point sequences. -/
def charsLtB : List Char → List Char → Bool
  | [], [] => false
  | [], _ :: _ => true
  | _ :: _, [] => false
  | a :: as, b :: bs =>
    if a.toNat < b.toNat then true
    else if b.toNat < a.toNat then false
    else charsLtB as bs

/-- Strict code-point order on `String`, as used by Python `sorted`. -/
def strLtS (a b : String) : Bool := charsLtB a.data b.data

/-- The `--list` branch of `main`: one block per key of `action_list`,
iterating keys in sorted order; `action_path` is the
`re.findall(r"Actions.\S+", str(action))[0]` result, i.e. `"Actions."`
followed by the bound method name. -/
def listActionsOutput : List String :=
  (pisort strLtS (actionListM.map Prod.fst)).map
    (fun k =>
      match actionListM.lookup k with
      | some obj =>
        obj.name ++ ":\n\tID: " ++ obj.id ++ "\n\tAction: Actions." ++ obj.action ++ "\n"
      | none => "")

/-- Result of one `main` invocation: lines printed, exit code, and the
identifier of the action executed (if any). -/
structure MainResult where
  output : List String
  exitCode : Option Nat
  executedAction : Option String
deriving Repr, DecidableEq

/-- `main` after `Config` and `Actions` construction: `--list` prints the
sorted listing and exits 0 before `execute_plugin` can run anything;
otherwise `execute_plugin` resolves the argument (sanitized like a name) in
`action_list` and runs it, or dies on the uncaught "Not a valid action"
exception (exit code 1). -/
def mainRun (listActionsFlag : Bool) (actionArg : Option String) : MainResult :=
  if listActionsFlag then
    { output := listActionsOutput, exitCode := some 0, executedAction := none }
  else
    match actionArg with
    | none => { output := [], exitCode := none, executedAction := none }
    | some a =>
      let resolved := sanitizeId a
      if (actionListM.lookup resolved).isSome then
        { output := [], exitCode := none, executedAction := some resolved }
      else
        { output := [], exitCode := some 1, executedAction := none }

/-- The listing claim C6 asserts: all registered actions, sorted by derived
identifier, each block showing name, identifier and callback. -/
def claimListingC6 : List String :=
  (pisort (fun p q => strLtS (sanitizeId p.1) (sanitizeId q.1)) registeredActions).map
    (fun p =>
      p.1 ++ ":\n\tID: " ++ sanitizeId p.1 ++ "\n\tAction: Actions." ++ p.2 ++ "\n")

/-- Boolean pairwise-distinctness check, used so that the uniqueness of the
108 derived identifiers can be established by kernel computation. -/
def allDistinctB : List String → Bool
  | [] => true
  | x :: xs => xs.all (fun y => !(x == y)) && allDistinctB xs

theorem allDistinctB_nodup (l : List String) (h : allDistinctB l = true) : l.Nodup := by
  induction l with
  | nil => exact List.nodup_nil
  | cons x xs ih =>
    simp only [allDistinctB, Bool.and_eq_true, List.all_eq_true] at h
    refine List.nodup_cons.mpr ⟨?_, ih h.2⟩
    intro hmem
    have := h.1 x hmem
    simp at this

set_option maxRecDepth 40000 in
/-- Claim C7: the identifiers derived from the registered action names are
pairwise distinct, so `action_list` keeps one entry per registration and no
registration overwrites another. -/
theorem action_ids_unique :
    (registeredActions.map (fun p => sanitizeId p.1)).Nodup ∧
    actionListM.length = registeredActions.length :=
  ⟨allDistinctB_nodup _ (by rfl), by rfl⟩

set_option maxRecDepth 40000 in
/-- Claim C6: with `--list`, `main` prints exactly one block per registered
action — name, identifier, callback — sorted by identifier, exits with code
0, and executes no action. -/
theorem main_list_flag_lists_all_actions (actionArg : Option String) :
    mainRun true actionArg
      = { output := claimListingC6, exitCode := some 0, executedAction := none } := by
  have h : listActionsOutput = claimListingC6 := by rfl
  simp [mainRun, h]

/-! ### Claim C10: `Reusable.dict_merge` and argument mutation

To talk about mutation of the caller's dicts we need reference semantics, so
Python dicts and lists are modelled as heap objects addressed by `Nat`, and
scalars as immediate values.  `dict_merge` is then a state-passing function
on the heap.  Recursion (nested merges, structural `==`) is bounded by fuel;
running out of fuel is a distinct outcome from a Python `TypeError`. -/

inductive PVal where
  | pnull
  | pbool (b : Bool)
  | pint (n : Int)
  | pstr (s : String)
  | ref (a : Nat)
deriving Repr, DecidableEq

inductive PObj where
  | dictO (entries : List (String × PVal))
  | listO (items : List PVal)
deriving Repr, DecidableEq

structure Heap where
  objs : List (Nat × PObj)
  next : Nat
deriving Repr, DecidableEq

def heapGet (h : Heap) (a : Nat) : Option PObj :=
  h.objs.lookup a

def heapSet (h : Heap) (a : Nat) (o : PObj) : Heap :=
  { h with objs := h.objs.map (fun p => if p.1 == a then (a, o) else p) }

def heapAlloc (h : Heap) (o : PObj) : Nat × Heap :=
  (h.next, { objs := h.objs ++ [(h.next, o)], next := h.next + 1 })

/-- Python truthiness of a value (`if not rtn_dct.get(k)`): `None`, `False`,
zero, the empty string and empty containers are falsy. -/
def truthyV (h : Heap) (v : PVal) : Bool :=
  match v with
  | .pnull => false
  | .pbool b => b
  | .pint n => !(n == 0)
  | .pstr s => !(s == "")
  | .ref a =>
    match heapGet h a with
    | some (.dictO es) => !es.isEmpty
    | some (.listO xs) => !xs.isEmpty
    | none => false

inductive PType where
  | tnone | tbool | tint | tstr | tdict | tlist
deriving Repr, DecidableEq

def typeOfV (h : Heap) (v : PVal) : PType :=
  match v with
  | .pnull => .tnone
  | .pbool _ => .tbool
  | .pint _ => .tint
  | .pstr _ => .tstr
  | .ref a =>
    match heapGet h a with
    | some (.dictO _) => .tdict
    | _ => .tlist

/-- `isinstance(v, type(w))` for the types above; `bool` is a subclass of
`int`. -/
def pyIsinstanceTy (h : Heap) (v : PVal) (t : PType) : Bool :=
  typeOfV h v == t || (typeOfV h v == .tbool && t == .tint)

/-- Python `==` between heap values (used by `list_value not in rtn_dct[k]`),
resolving references structurally; numbers compare by value across
`bool`/`int`. -/
def heapEqV (h : Heap) : Nat → PVal → PVal → Bool
  | 0, _, _ => false
  | fuel + 1, a, b =>
    match a, b with
    | .pnull, .pnull => true
    | .pbool x, .pbool y => x == y
    | .pbool x, .pint m => (if x then (1 : Int) else 0) == m
    | .pint n, .pbool y => n == (if y then (1 : Int) else 0)
    | .pint n, .pint m => n == m
    | .pstr s, .pstr t => s == t
    | .ref x, .ref y =>
      (match heapGet h x, heapGet h y with
      | some (.dictO es), some (.dictO fs) =>
        es.length == fs.length &&
          es.all (fun p =>
            match fs.lookup p.1 with
            | some w => heapEqV h fuel p.2 w
            | none => false)
      | some (.listO xs), some (.listO ys) =>
        xs.length == ys.length &&
          (xs.zip ys).all (fun p => heapEqV h fuel p.1 p.2)
      | _, _ => false)
    | _, _ => false

/-- Assign `d[k] = v` in a dict entry list: replace in place if present,
else append. -/
def entryAssign (es : List (String × PVal)) (k : String) (v : PVal) : List (String × PVal) :=
  if es.any (fun p => p.1 == k) then es.map (fun p => if p.1 == k then (k, v) else p)
  else es ++ [(k, v)]

/-- The list branch of `dict_merge`: append to the target list object each
item of the merge list that is not already in it (`in` tests `==`), mutating
the target in place. -/
def appendMissing (h : Heap) (target : Nat) (items : List PVal) : Heap :=
  items.foldl
    (fun h item =>
      match heapGet h target with
      | some (.listO cur) =>
        if cur.any (fun c => heapEqV h 100 c item) then h
        else heapSet h target (.listO (cur ++ [item]))
      | _ => h)
    h

mutual

/-- `Reusable.dict_merge` on two dict addresses (two-argument form,
`add_keys=True`).  `args[0].copy()` is a shallow copy: a fresh dict object
whose entries still reference the original nested objects. -/
def dictMergeH : Nat → Heap → Nat → Nat → Except String (Nat × Heap)
  | 0, _, _, _ => .error "fuel"
  | fuel + 1, h, d1, d2 =>
    match heapGet h d1, heapGet h d2 with
    | some (.dictO es1), some (.dictO es2) =>
      let rh := heapAlloc h (.dictO es1)
      mergeGo fuel rh.2 rh.1 es2
    | _, _ => .error "TypeError"

/-- The `for k, v in merge_dct.items()` loop of `dict_merge`, one branch per
case of the source. -/
def mergeGo : Nat → Heap → Nat → List (String × PVal) → Except String (Nat × Heap)
  | 0, _, _, _ => .error "fuel"
  | _ + 1, h, rtn, [] => .ok (rtn, h)
  | fuel + 1, h, rtn, (k, v) :: rest =>
    match heapGet h rtn with
    | some (.dictO es) =>
      let cur? := es.lookup k
      if !(match cur? with | some c => truthyV h c | none => false) then
        mergeGo fuel (heapSet h rtn (.dictO (entryAssign es k v))) rtn rest
      else if v == .pnull then mergeGo fuel h rtn rest
      else
        match cur? with
        | none => .error "unreachable"
        | some cur =>
          if !(pyIsinstanceTy h v (typeOfV h cur)) then .error "TypeError"
          else if typeOfV h cur == .tdict && typeOfV h v == .tdict then
            match cur, v with
            | .ref ca, .ref va =>
              (match dictMergeH fuel h ca va with
              | .ok mh =>
                mergeGo fuel
                  (heapSet mh.2 rtn (.dictO (entryAssign es k (.ref mh.1)))) rtn rest
              | .error e => .error e)
            | _, _ => .error "unreachable"
          else if typeOfV h v == .tlist then
            match cur, v with
            | .ref ca, .ref va =>
              (match heapGet h va with
              | some (.listO items) => mergeGo fuel (appendMissing h ca items) rtn rest
              | _ => .error "unreachable")
            | _, _ => .error "unreachable"
          else
            mergeGo fuel (heapSet h rtn (.dictO (entryAssign es k v))) rtn rest
    | _ => .error "unreachable"

end

/-- The heap for `d1 = {"a": [1]}`, `d2 = {"a": [2]}`: addresses 0 and 1 are
the two list objects, 2 and 3 the two dicts. -/
def mergeBugHeap : Heap :=
  { objs := [(0, .listO [.pint 1]), (1, .listO [.pint 2]),
             (2, .dictO [("a", .ref 0)]), (3, .dictO [("a", .ref 1)])],
    next := 4 }

/-- Claim C10: `dict_merge`'s docstring promises "the original remains
unmodified", but merging `{"a": [1]}` with `{"a": [2]}` appends `2` to the
first argument's nested list (object 0), which afterwards holds `[1, 2]`
instead of `[1]`.  The shallow `copy()` shares nested objects, and the list
branch appends in place. -/
theorem dict_merge_mutates_first_argument :
    (match dictMergeH 10 mergeBugHeap 2 3 with
      | .ok p => heapGet p.2 0
      | .error _ => none) = some (.listO [.pint 1, .pint 2]) ∧
    heapGet mergeBugHeap 0 = some (.listO [.pint 1]) :=
  ⟨rfl, rfl⟩

/-! ### Parsed JSON values

`JValue` models the values `json.loads` produces: `None`, `bool`, `int`,
`float`, `str`, `list`, `dict` (dicts as association lists in insertion
order; `json.loads` keeps the last occurrence of a duplicate key, so its
dicts have distinct keys).  Floats are modelled as exact rationals: the
programs below use only their decidable order/equality and an injective
deterministic rendering, all true of CPython floats. -/

inductive JValue where
  | jnull
  | jbool (b : Bool)
  | jint (n : Int)
  | jfloat (q : ℚ)
  | jstr (s : String)
  | jlist (xs : List JValue)
  | jdict (kvs : List (String × JValue))
deriving Repr

/-- `x is None`. -/
def isJNull : JValue → Bool
  | .jnull => true
  | _ => false

/-- Python truthiness of a parsed JSON value. -/
def jTruthy : JValue → Bool
  | .jnull => false
  | .jbool b => b
  | .jint n => !(n == 0)
  | .jfloat q => !(q == 0)
  | .jstr s => !(s == "")
  | .jlist xs => !xs.isEmpty
  | .jdict kvs => !kvs.isEmpty

/-- The Python runtime type of a value (`type(x)`). -/
inductive JTy where
  | tnull | tbool | tint | tfloat | tstr | tlist | tdict
deriving Repr, DecidableEq

def jtype : JValue → JTy
  | .jnull => .tnull
  | .jbool _ => .tbool
  | .jint _ => .tint
  | .jfloat _ => .tfloat
  | .jstr _ => .tstr
  | .jlist _ => .tlist
  | .jdict _ => .tdict

/-- `isinstance(x, numbers.Number)`: `int`, `float` and `bool` (a subclass
of `int`) are Numbers. -/
def isNumTy (t : JTy) : Bool :=
  t == .tint || t == .tfloat || t == .tbool

/-- `isinstance(v, type(w))` for parsed JSON values: exact type match, plus
`bool` counting as `int`. -/
def jIsinstance (v : JValue) (t : JTy) : Bool :=
  jtype v == t || (jtype v == .tbool && t == .tint)

/-! ### Python `==` and `<` on parsed JSON values

Python equality on these values identifies `True == 1 == 1.0` and compares
dicts as unordered key/value maps.  We model it by comparing canonical forms:
`canon` maps every number to its rational value and sorts dict entries by
key.  Python `<` (`cltE`) is defined on the canonical forms: total on
numbers and on strings, lexicographic-with-equality-skip on lists, and a
`TypeError` (modelled as `Except.error`) on every other comparison, exactly
as CPython rich comparison behaves on these values. -/

inductive CV where
  | cnull
  | cnum (q : ℚ)
  | cstr (s : String)
  | clist (xs : List CV)
  | cdict (kvs : List (String × CV))
deriving Repr

mutual

def cvBeq : CV → CV → Bool
  | .cnull, .cnull => true
  | .cnum a, .cnum b => a == b
  | .cstr a, .cstr b => a == b
  | .clist xs, .clist ys => cvBeqL xs ys
  | .cdict a, .cdict b => cvBeqKV a b
  | _, _ => false

def cvBeqL : List CV → List CV → Bool
  | [], [] => true
  | x :: xs, y :: ys => cvBeq x y && cvBeqL xs ys
  | _, _ => false

def cvBeqKV : List (String × CV) → List (String × CV) → Bool
  | [], [] => true
  | p :: ps, q :: qs => p.1 == q.1 && cvBeq p.2 q.2 && cvBeqKV ps qs
  | _, _ => false

end

theorem cvBeq_iff_aux :
    ∀ n, ∀ a b : CV, sizeOf a ≤ n → (cvBeq a b = true ↔ a = b) := by
  intro n
  induction n with
  | zero =>
    intro a b h
    cases a <;> simp at h
  | succ n ih =>
    intro a b h
    have hlist : ∀ (xs ys : List CV), (∀ x ∈ xs, sizeOf x ≤ n) →
        (cvBeqL xs ys = true ↔ xs = ys) := by
      intro xs
      induction xs with
      | nil => intro ys _; cases ys <;> simp [cvBeqL]
      | cons x xs ihx =>
        intro ys hx
        cases ys with
        | nil => simp [cvBeqL]
        | cons y ys =>
          simp only [cvBeqL, Bool.and_eq_true, List.cons.injEq]
          rw [ih x y (hx x (by simp)), ihx ys (fun z hz => hx z (by simp [hz]))]
    have hkv : ∀ (ps qs : List (String × CV)), (∀ p ∈ ps, sizeOf p.2 ≤ n) →
        (cvBeqKV ps qs = true ↔ ps = qs) := by
      intro ps
      induction ps with
      | nil => intro qs _; cases qs <;> simp [cvBeqKV]
      | cons p ps ihp =>
        intro qs hp
        cases qs with
        | nil => simp [cvBeqKV]
        | cons q qs =>
          simp only [cvBeqKV, Bool.and_eq_true, List.cons.injEq, beq_iff_eq]
          rw [ih p.2 q.2 (hp p (by simp)), ihp qs (fun z hz => hp z (by simp [hz]))]
          constructor
          · rintro ⟨⟨h1, h2⟩, h3⟩
            exact ⟨Prod.ext h1 h2, h3⟩
          · rintro ⟨h1, h3⟩
            exact ⟨⟨congrArg Prod.fst h1, congrArg Prod.snd h1⟩, h3⟩
    cases a with
    | cnull => cases b <;> simp [cvBeq]
    | cnum q => cases b <;> simp [cvBeq]
    | cstr s => cases b <;> simp [cvBeq]
    | clist xs =>
      cases b <;> simp only [cvBeq, Bool.false_eq_true, false_iff] <;>
        try exact fun hc => CV.noConfusion hc
      case clist ys =>
        have hx : ∀ x ∈ xs, sizeOf x ≤ n := by
          intro x hxm
          have h1 : sizeOf x < sizeOf xs := List.sizeOf_lt_of_mem hxm
          have h2 : sizeOf (CV.clist xs) = 1 + sizeOf xs := by simp
          omega
        rw [hlist xs ys hx]
        constructor
        · intro he; rw [he]
        · intro he; exact CV.clist.inj he
    | cdict ps =>
      cases b <;> simp only [cvBeq, Bool.false_eq_true, false_iff] <;>
        try exact fun hc => CV.noConfusion hc
      case cdict qs =>
        have hp : ∀ p ∈ ps, sizeOf p.2 ≤ n := by
          intro p hpm
          have h1 : sizeOf p < sizeOf ps := List.sizeOf_lt_of_mem hpm
          have h2 : sizeOf (CV.cdict ps) = 1 + sizeOf ps := by simp
          have h3 : sizeOf p.2 < sizeOf p := by
            obtain ⟨x, y⟩ := p
            simp
          omega
        rw [hkv ps qs hp]
        constructor
        · intro he; rw [he]
        · intro he; exact CV.cdict.inj he

theorem cvBeq_iff (a b : CV) : cvBeq a b = true ↔ a = b :=
  cvBeq_iff_aux (sizeOf a) a b (Nat.le_refl _)

instance : DecidableEq CV :=
  fun a b => decidable_of_iff (cvBeq a b = true) (cvBeq_iff a b)

instance : BEq CV := instBEqOfDecidableEq

/-- Canonical form of a parsed JSON value: numbers (`bool`/`int`/`float`)
become their rational value, dict entries are sorted by key.  Two values are
Python-`==`-equal iff their canonical forms coincide. -/
def canon : JValue → CV
  | .jnull => .cnull
  | .jbool b => .cnum (if b then 1 else 0)
  | .jint n => .cnum n
  | .jfloat q => .cnum q
  | .jstr s => .cstr s
  | .jlist xs => .clist (xs.attach.map (fun p => canon p.1))
  | .jdict kvs =>
    .cdict (pisort (fun a b => strLtS a.1 b.1)
      (kvs.attach.map (fun p => (p.1.1, canon p.1.2))))
termination_by v => sizeOf v
decreasing_by
  · have := List.sizeOf_lt_of_mem p.2
    simp
    omega
  · have h1 := List.sizeOf_lt_of_mem p.2
    have h2 : sizeOf p.1.2 < sizeOf p.1 := by
      obtain ⟨x, hx⟩ := p
      obtain ⟨a, b⟩ := x
      simp
    simp
    omega

theorem canon_jlist (xs : List JValue) : canon (.jlist xs) = .clist (xs.map canon) := by
  rw [canon]
  simp [List.attach_map_val]

theorem canon_jdict (kvs : List (String × JValue)) :
    canon (.jdict kvs) = .cdict (pisort (fun a b => strLtS a.1 b.1)
      (kvs.map (fun p => (p.1, canon p.2)))) := by
  rw [canon]
  rw [List.attach_map_coe kvs (fun p => (p.1, canon p.2))]

/-- Python `==` on parsed JSON values. -/
def pyEqJ (a b : JValue) : Bool :=
  canon a == canon b

/-! ### Claim C8: `Actions._strip_json_for_spark`

The helper recursions of the source (`run_strip`, `Reusable.dict_merge` on
freshly parsed values) are embedded with a fuel bound; exhausting the fuel is
an `Except.error`, distinct from any produced value, so theorems about
produced values cover every terminating run.  `dict_merge` is used here on
freshly parsed JSON (no aliasing between its arguments), so a value-level
embedding of its result is faithful. -/

/-- `d[k] = v` on an association list: replace in place or append. -/
def assocSet (es : List (String × JValue)) (k : String) (v : JValue) :
    List (String × JValue) :=
  if es.any (fun p => p.1 == k) then es.map (fun p => if p.1 == k then (k, v) else p)
  else es ++ [(k, v)]

/-- `Reusable.dict_merge` (two dicts, `add_keys=True`) at the level of
values: fold the merge dict's items into a copy of the first.  `.error ()`
is either a Python `TypeError` (mismatched overlapping keys) or fuel
exhaustion. -/
def dictMergeP : Nat → List (String × JValue) → List (String × JValue) →
    Except Unit (List (String × JValue))
  | 0, _, _ => .error ()
  | _ + 1, rtn, [] => .ok rtn
  | fuel + 1, rtn, (k, v) :: rest =>
    let cur? := rtn.lookup k
    if !(match cur? with | some c => jTruthy c | none => false) then
      dictMergeP (fuel + 1) (assocSet rtn k v) rest
    else if isJNull v then
      dictMergeP (fuel + 1) rtn rest
    else
      match cur? with
      | none => .error ()
      | some cur =>
        if !(jIsinstance v (jtype cur)) then .error ()
        else
          match cur, v with
          | .jdict ces, .jdict ves =>
            (match dictMergeP fuel ces ves with
            | .ok m => dictMergeP (fuel + 1) (assocSet rtn k (.jdict m)) rest
            | .error e => .error e)
          | _, .jlist vitems =>
            (match cur with
            | .jlist citems =>
              let newList := vitems.foldl
                (fun acc it => if acc.any (fun c => pyEqJ c it) then acc else acc ++ [it])
                citems
              dictMergeP (fuel + 1) (assocSet rtn k (.jlist newList)) rest
            | _ => .error ())
          | _, _ => dictMergeP (fuel + 1) (assocSet rtn k v) rest
termination_by fuel _ md => (fuel, md.length)

/-- `Reusable.dict_merge(*args)`: left fold of the two-dict merge over the
remaining arguments. -/
def dictMergeAll (fuel : Nat) (first : List (String × JValue)) :
    List (List (String × JValue)) → Except Unit (List (String × JValue))
  | [] => .ok first
  | d :: ds =>
    match dictMergeP fuel first d with
    | .ok m => dictMergeAll fuel m ds
    | .error e => .error e

/-- The type-scanning loop of the list branch of `run_strip`: walk the list
carrying `single_value`; `none` models the early `return ["x"]` taken for
strings and non-numeric type mixes, `some sv` the final `single_value`. -/
def scanTypes : JValue → List JValue → Option JValue
  | sv, [] => some sv
  | sv, value :: rest =>
    if jtype sv == .tstr || jtype value == .tstr then none
    else if jtype sv != jtype value then
      if isNumTy (jtype sv) && isNumTy (jtype value) then
        scanTypes (if jtype sv != .tfloat then .jfloat ((11 : ℚ) / 10) else sv) rest
      else none
    else scanTypes sv rest

/-- The entries of a dict value (used for the merge of a list of dicts whose
type consistency the scan has already established). -/
def dictEntriesOf : JValue → List (String × JValue)
  | .jdict kvs => kvs
  | _ => []

/-- The dict comprehension `{k: run_strip(v) for k, v in obj.items()}`,
parameterised by the recursive call. -/
def stripKVsWith (f : JValue → Except Unit JValue) :
    List (String × JValue) → Except Unit (List (String × JValue))
  | [] => .ok []
  | (k, v) :: rest =>
    match f v with
    | .ok r =>
      (match stripKVsWith f rest with
      | .ok out => .ok ((k, r) :: out)
      | .error e => .error e)
    | .error e => .error e

/-- `Actions._strip_json_for_spark` (its inner `run_strip`;
`replace_none_values` is a no-op in the source).  Fuel bounds the recursion
depth. -/
def stripJsonForSpark : Nat → JValue → Except Unit JValue
  | 0, _ => .error ()
  | fuel + 1, v =>
    match v with
    | .jnull => .ok (.jstr "x")
    | .jstr _ => .ok (.jstr "x")
    | .jbool b => .ok (.jbool b)
    | .jint _ => .ok (.jint 1)
    | .jfloat _ => .ok (.jfloat ((11 : ℚ) / 10))
    | .jlist xs =>
      let obj := xs.filter (fun x => !isJNull x)
      match obj with
      | [] => .ok (.jlist [.jstr "x"])
      | first :: _ =>
        match scanTypes first obj with
        | none => .ok (.jlist [.jstr "x"])
        | some sv =>
          if jtype sv == .tint then .ok (.jint 1)
          else if jtype sv == .tfloat then .ok (.jfloat ((11 : ℚ) / 10))
          else if !(jtype sv == .tlist || jtype sv == .tdict) then .ok sv
          else if jtype sv == .tlist then .ok (.jlist [.jlist [.jstr "x"]])
          else
            if obj.length == 1 then
              match stripJsonForSpark fuel first with
              | .ok r => .ok (.jlist [r])
              | .error e => .error e
            else
              match dictMergeAll fuel (dictEntriesOf first) (obj.tail.map dictEntriesOf) with
              | .ok merged =>
                (match stripJsonForSpark fuel (.jdict merged) with
                | .ok r => .ok (.jlist [r])
                | .error e => .error e)
              | .error e => .error e
    | .jdict kvs =>
      if kvs.isEmpty then .ok (.jstr "\x7b\x7d")
      else
        match stripKVsWith (stripJsonForSpark fuel) kvs with
        | .ok out => .ok (.jdict out)
        | .error e => .error e

/-! Claim C8's two output properties, as executable predicates over values
(dict *keys* are not values and are left untouched by the code). -/

mutual

/-- No `null` occurs anywhere in the value. -/
def noNullB : JValue → Bool
  | .jnull => false
  | .jlist xs => noNullListB xs
  | .jdict kvs => noNullKVB kvs
  | _ => true

def noNullListB : List JValue → Bool
  | [] => true
  | x :: xs => noNullB x && noNullListB xs

def noNullKVB : List (String × JValue) → Bool
  | [] => true
  | p :: ps => noNullB p.2 && noNullKVB ps

end

mutual

/-- Every string value occurring in the value is non-empty. -/
def strNonemptyB : JValue → Bool
  | .jstr s => !(s == "")
  | .jlist xs => strNonemptyListB xs
  | .jdict kvs => strNonemptyKVB kvs
  | _ => true

def strNonemptyListB : List JValue → Bool
  | [] => true
  | x :: xs => strNonemptyB x && strNonemptyListB xs

def strNonemptyKVB : List (String × JValue) → Bool
  | [] => true
  | p :: ps => strNonemptyB p.2 && strNonemptyKVB ps

end

/-- Shorthand for the conjunction of C8's two properties. -/
def sparkSafe (v : JValue) : Bool :=
  noNullB v && strNonemptyB v

theorem sparkSafe_kv_of_forall (out : List (String × JValue))
    (h : ∀ p ∈ out, sparkSafe p.2 = true) : sparkSafe (.jdict out) = true := by
  induction out with
  | nil => rfl
  | cons p ps ih =>
    have hp := h p (by simp)
    have hps := ih (fun q hq => h q (by simp [hq]))
    simp only [sparkSafe, Bool.and_eq_true, noNullB, noNullKVB, strNonemptyB,
      strNonemptyKVB] at *
    exact ⟨⟨hp.1, hps.1⟩, hp.2, hps.2⟩

/-- The scan either keeps the initial `single_value` or replaces it by the
float `1.1`. -/
theorem scanTypes_some (l : List JValue) :
    ∀ sv0 sv, scanTypes sv0 l = some sv → sv = sv0 ∨ sv = .jfloat ((11 : ℚ) / 10) := by
  induction l with
  | nil =>
    intro sv0 sv h
    simp [scanTypes] at h
    exact Or.inl h.symm
  | cons x xs ih =>
    intro sv0 sv h
    simp only [scanTypes] at h
    split at h
    · exact absurd h (by simp)
    · split at h
      · split at h
        · rcases ih _ _ h with h1 | h1
          · split at h1
            · exact Or.inr h1
            · exact Or.inl h1
          · exact Or.inr h1
        · exact absurd h (by simp)
      · exact ih _ _ h

theorem stripKVsWith_safe (f : JValue → Except Unit JValue)
    (hP : ∀ v r, f v = .ok r → sparkSafe r = true) :
    ∀ kvs out, stripKVsWith f kvs = .ok out → ∀ p ∈ out, sparkSafe p.2 = true := by
  intro kvs
  induction kvs with
  | nil =>
    intro out h p hp
    simp [stripKVsWith] at h
    subst h
    simp at hp
  | cons kv rest ih =>
    intro out h p hp
    obtain ⟨k, v⟩ := kv
    simp only [stripKVsWith] at h
    cases hr : f v with
    | error e => simp only [hr] at h; cases h
    | ok r =>
      cases hout2 : stripKVsWith f rest with
      | error e => simp only [hr, hout2] at h; cases h
      | ok out2 =>
        simp only [hr, hout2, Except.ok.injEq] at h
        subst h
        rcases (by simpa using hp : p = (k, r) ∨ p ∈ out2) with h1 | h1
        · subst h1
          exact hP v r hr
        · exact ih out2 hout2 p h1

theorem sparkSafe_singleton (r : JValue) (h : sparkSafe r = true) :
    sparkSafe (.jlist [r]) = true := by
  simp only [sparkSafe, Bool.and_eq_true, noNullB, noNullListB, strNonemptyB,
    strNonemptyListB, Bool.and_true] at *
  exact h

/-- Claim C8: every value `_strip_json_for_spark` produces contains no null
and no empty string value. -/
theorem strip_json_for_spark_safe :
    ∀ (fuel : Nat) (v r : JValue), stripJsonForSpark fuel v = .ok r →
      noNullB r = true ∧ strNonemptyB r = true := by
  have main : ∀ (fuel : Nat) (v r : JValue), stripJsonForSpark fuel v = .ok r →
      sparkSafe r = true := by
    intro fuel
    induction fuel with
    | zero =>
      intro v r h
      simp [stripJsonForSpark] at h
    | succ fuel ih =>
      intro v r h
      cases v with
      | jnull => simp [stripJsonForSpark] at h; subst h; rfl
      | jbool b => simp [stripJsonForSpark] at h; subst h; rfl
      | jint n => simp [stripJsonForSpark] at h; subst h; rfl
      | jfloat q => simp [stripJsonForSpark] at h; subst h; rfl
      | jstr s => simp [stripJsonForSpark] at h; subst h; rfl
      | jdict kvs =>
        simp only [stripJsonForSpark] at h
        by_cases hemp : kvs.isEmpty
        · simp [hemp] at h
          subst h
          rfl
        · rw [if_neg (by simpa using hemp)] at h
          cases hout : stripKVsWith (stripJsonForSpark fuel) kvs with
          | error e => simp only [hout] at h; cases h
          | ok out =>
            simp only [hout, Except.ok.injEq] at h
            subst h
            exact sparkSafe_kv_of_forall out
              (stripKVsWith_safe (stripJsonForSpark fuel) ih kvs out hout)
      | jlist xs =>
        simp only [stripJsonForSpark] at h
        cases hobj : xs.filter (fun x => !isJNull x) with
        | nil =>
          simp only [hobj, Except.ok.injEq] at h
          subst h
          rfl
        | cons first tl =>
          simp only [hobj] at h
          cases hscan : scanTypes first (first :: tl) with
          | none =>
            simp only [hscan, Except.ok.injEq] at h
            subst h
            rfl
          | some sv =>
            simp only [hscan] at h
            have hfirst_mem : first ∈ xs.filter (fun x => !isJNull x) := by
              rw [hobj]; simp
            have hfirst_nn : isJNull first = false := by
              have := (List.mem_filter.mp hfirst_mem).2
              simpa using this
            cases sv with
            | jint n =>
              simp [jtype] at h
              subst h
              rfl
            | jfloat q =>
              simp [jtype] at h
              subst h
              rfl
            | jbool b =>
              simp [jtype] at h
              subst h
              rfl
            | jlist ys =>
              simp [jtype] at h
              subst h
              rfl
            | jnull =>
              rcases scanTypes_some _ _ _ hscan with h1 | h1
              · rw [← h1] at hfirst_nn
                simp [isJNull] at hfirst_nn
              · exact JValue.noConfusion h1
            | jstr s =>
              rcases scanTypes_some _ _ _ hscan with h1 | h1
              · rw [← h1] at hscan
                simp [scanTypes, jtype] at hscan
              · exact JValue.noConfusion h1
            | jdict ds =>
              simp only [jtype] at h
              simp only [show (JTy.tdict == JTy.tint) = false from rfl,
                show (JTy.tdict == JTy.tfloat) = false from rfl,
                show (JTy.tdict == JTy.tlist) = false from rfl,
                show (JTy.tdict == JTy.tdict) = true from rfl,
                Bool.false_eq_true, if_false, Bool.or_true, Bool.not_true] at h
              cases tl with
              | nil =>
                simp only [List.length_cons, List.length_nil,
                  show ((0 + 1 : Nat) == 1) = true from rfl, if_true] at h
                cases hres : stripJsonForSpark fuel first with
                | error e => simp only [hres] at h; cases h
                | ok rr =>
                  simp only [hres, Except.ok.injEq] at h
                  subst h
                  exact sparkSafe_singleton rr (ih first rr hres)
              | cons second tl2 =>
                simp only [List.length_cons,
                  show ∀ n : Nat, ((n + 1 + 1 : Nat) == 1) = false from fun n => by
                    simp, Bool.false_eq_true, if_false, List.tail_cons] at h
                cases hm : dictMergeAll fuel (dictEntriesOf first)
                    ((second :: tl2).map dictEntriesOf) with
                | error e => simp only [hm] at h; cases h
                | ok merged =>
                  simp only [hm] at h
                  cases hres : stripJsonForSpark fuel (.jdict merged) with
                  | error e => simp only [hres] at h; cases h
                  | ok rr =>
                    simp only [hres, Except.ok.injEq] at h
                    subst h
                    exact sparkSafe_singleton rr (ih _ rr hres)
  intro fuel v r h
  have := main fuel v r h
  simpa [sparkSafe, Bool.and_eq_true] using this

/-- Witness for C8: stripping `{"a": null}` succeeds and the output indeed
has no nulls and no empty strings. -/
theorem strip_json_for_spark_safe_witness :
    noNullB (.jdict [("a", .jstr "x")]) = true ∧
    strNonemptyB (.jdict [("a", .jstr "x")]) = true :=
  strip_json_for_spark_safe 5 (.jdict [("a", .jnull)]) (.jdict [("a", .jstr "x")]) (by rfl)

/-! ### A model of `json.loads`

An executable recursive-descent parser for the JSON accepted by
`json.loads(s, strict=False)` (`strict=False` admits raw control characters
inside strings).  Fuel bounds nesting depth; the claims below are stated for
every fuel, and both the embedded function and its specification use the
same parser, so no theorem depends on the fuel chosen.  Deviations, both
irrelevant to the claims: `NaN`/`Infinity` literals and lone surrogate
escapes are rejected (their values are not representable in the exact
rational/`Char` model), and float literals denote exact rationals. -/

def jsonWsChar (c : Char) : Bool :=
  c == ' ' || c == '\t' || c == '\n' || c == '\r'

def skipWs (l : List Char) : List Char :=
  l.dropWhile jsonWsChar

def hexVal (c : Char) : Option Nat :=
  if c.isDigit then some (c.toNat - 48)
  else if 'a' ≤ c && c ≤ 'f' then some (c.toNat - 87)
  else if 'A' ≤ c && c ≤ 'F' then some (c.toNat - 55)
  else none

def hex4 (a b c d : Char) : Option Nat :=
  match hexVal a, hexVal b, hexVal c, hexVal d with
  | some x, some y, some z, some w => some (((x * 16 + y) * 16 + z) * 16 + w)
  | _, _, _, _ => none

/-- The body of a JSON string after the opening quote: returns the decoded
characters and the input after the closing quote. -/
def parseStringBody : List Char → Except Unit (List Char × List Char)
  | [] => .error ()
  | c :: cs =>
    if c == '"' then .ok ([], cs)
    else if c == '\\' then
      match cs with
      | [] => .error ()
      | e :: cs2 =>
        if e == '"' || e == '\\' || e == '/' then
          match parseStringBody cs2 with
          | .ok (out, rest) => .ok (e :: out, rest)
          | .error u => .error u
        else if e == 'b' || e == 'f' || e == 'n' || e == 'r' || e == 't' then
          let d : Char :=
            if e == 'b' then '\x08' else if e == 'f' then '\x0c'
            else if e == 'n' then '\n' else if e == 'r' then '\r' else '\t'
          match parseStringBody cs2 with
          | .ok (out, rest) => .ok (d :: out, rest)
          | .error u => .error u
        else if e == 'u' then
          match cs2 with
          | h1 :: h2 :: h3 :: h4 :: cs3 =>
            (match hex4 h1 h2 h3 h4 with
            | none => .error ()
            | some n =>
              if 0xD800 ≤ n && n ≤ 0xDBFF then
                match cs3 with
                | b1 :: u1 :: k1 :: k2 :: k3 :: k4 :: cs4 =>
                  (if b1 == '\\' && u1 == 'u' then
                    match hex4 k1 k2 k3 k4 with
                    | some m =>
                      if 0xDC00 ≤ m && m ≤ 0xDFFF then
                        match parseStringBody cs4 with
                        | .ok (out, rest) =>
                          .ok (Char.ofNat (0x10000 + (n - 0xD800) * 0x400 + (m - 0xDC00))
                            :: out, rest)
                        | .error u => .error u
                      else .error ()
                    | none => .error ()
                  else .error ())
                | _ => .error ()
              else if 0xDC00 ≤ n && n ≤ 0xDFFF then .error ()
              else
                match parseStringBody cs3 with
                | .ok (out, rest) => .ok (Char.ofNat n :: out, rest)
                | .error u => .error u)
          | _ => .error ()
        else .error ()
    else
      match parseStringBody cs with
      | .ok (out, rest) => .ok (c :: out, rest)
      | .error u => .error u

def digitsVal (ds : List Char) : Nat :=
  ds.foldl (fun a c => a * 10 + (c.toNat - 48)) 0

/-- A JSON number: an `int` when it has neither fraction nor exponent, else
a float (an exact rational here). -/
def parseNum (l : List Char) : Except Unit (JValue × List Char) :=
  let neg := match l with | c :: _ => c == '-' | [] => false
  let l1 := if neg then l.tail else l
  let ip := l1.takeWhile Char.isDigit
  let l2 := l1.dropWhile Char.isDigit
  if ip.isEmpty then .error ()
  else if ip.length > 1 && (ip.headD ' ' == '0') then .error ()
  else
    let fracRes : Option (List Char × List Char) :=
      match l2 with
      | '.' :: r =>
        let fp := r.takeWhile Char.isDigit
        if fp.isEmpty then none else some (fp, r.dropWhile Char.isDigit)
      | _ => some ([], l2)
    match fracRes with
    | none => .error ()
    | some (fp, l3) =>
      let expRes : Option (Bool × List Char × List Char) :=
        match l3 with
        | e :: r =>
          if e == 'e' || e == 'E' then
            match r with
            | '+' :: r2 =>
              let ep := r2.takeWhile Char.isDigit
              if ep.isEmpty then none else some (false, ep, r2.dropWhile Char.isDigit)
            | '-' :: r2 =>
              let ep := r2.takeWhile Char.isDigit
              if ep.isEmpty then none else some (true, ep, r2.dropWhile Char.isDigit)
            | _ =>
              let ep := r.takeWhile Char.isDigit
              if ep.isEmpty then none else some (false, ep, r.dropWhile Char.isDigit)
          else some (false, [], l3)
        | [] => some (false, [], l3)
      match expRes with
      | none => .error ()
      | some (eneg, ep, l4) =>
        if fp.isEmpty && ep.isEmpty then
          .ok (.jint (if neg then -(digitsVal ip : Int) else (digitsVal ip : Int)), l2)
        else
          let base : ℚ := (digitsVal (ip ++ fp) : ℚ) / ((10 : ℚ) ^ fp.length)
          let ex : ℤ := if eneg then -(digitsVal ep : Int) else (digitsVal ep : Int)
          let q := base * (10 : ℚ) ^ ex
          .ok (.jfloat (if neg then -q else q), l4)

mutual

/-- A JSON value, leading whitespace allowed. -/
def parseVal : Nat → List Char → Except Unit (JValue × List Char)
  | 0, _ => .error ()
  | fuel + 1, l =>
    match skipWs l with
    | [] => .error ()
    | '\x7b' :: r =>
      (match skipWs r with
      | '\x7d' :: r2 => .ok (.jdict [], r2)
      | _ =>
        match parseMembers fuel r with
        | .ok (pairs, rest) =>
          .ok (.jdict (pairs.foldl (fun m p => assocSet m p.1 p.2) []), rest)
        | .error u => .error u)
    | '[' :: r =>
      (match skipWs r with
      | ']' :: r2 => .ok (.jlist [], r2)
      | _ =>
        match parseElems fuel r with
        | .ok (vs, rest) => .ok (.jlist vs, rest)
        | .error u => .error u)
    | '"' :: r =>
      (match parseStringBody r with
      | .ok (content, rest) => .ok (.jstr (String.mk content), rest)
      | .error u => .error u)
    | 't' :: 'r' :: 'u' :: 'e' :: r => .ok (.jbool true, r)
    | 'f' :: 'a' :: 'l' :: 's' :: 'e' :: r => .ok (.jbool false, r)
    | 'n' :: 'u' :: 'l' :: 'l' :: r => .ok (.jnull, r)
    | c :: r => if c == '-' || c.isDigit then parseNum (c :: r) else .error ()

/-- Comma-separated array elements up to the closing bracket. -/
def parseElems : Nat → List Char → Except Unit (List JValue × List Char)
  | 0, _ => .error ()
  | fuel + 1, l =>
    match parseVal fuel l with
    | .ok (v, rest) =>
      (match skipWs rest with
      | ',' :: r2 =>
        (match parseElems fuel r2 with
        | .ok (vs, rest2) => .ok (v :: vs, rest2)
        | .error u => .error u)
      | ']' :: r2 => .ok ([v], r2)
      | _ => .error ())
    | .error u => .error u

/-- Comma-separated `"key": value` members up to the closing brace. -/
def parseMembers : Nat → List Char →
    Except Unit (List (String × JValue) × List Char)
  | 0, _ => .error ()
  | fuel + 1, l =>
    match skipWs l with
    | '"' :: r =>
      (match parseStringBody r with
      | .ok (key, r2) =>
        (match skipWs r2 with
        | ':' :: r3 =>
          (match parseVal fuel r3 with
          | .ok (v, r4) =>
            (match skipWs r4 with
            | ',' :: r5 =>
              (match parseMembers fuel r5 with
              | .ok (pairs, rest) => .ok ((String.mk key, v) :: pairs, rest)
              | .error u => .error u)
            | '\x7d' :: r5 => .ok ([(String.mk key, v)], r5)
            | _ => .error ())
          | .error u => .error u)
        | _ => .error ())
      | .error u => .error u)
    | _ => .error ()

end

/-- `json.loads`: parse one value and require only whitespace after it.
Every parse failure is a `ValueError` in Python; `.error ()` here. -/
def loads (fuel : Nat) (s : String) : Except Unit JValue :=
  match parseVal fuel s.data with
  | .ok (v, rest) => if (skipWs rest).isEmpty then .ok v else .error ()
  | .error u => .error u

/-! ### Claim C4: `Actions._json_notify_and_exit_when_invalid` -/

/-- The clipboard text as the function sees it: `read_clipboard()` (strip and
remove carriage returns), then drop a single trailing `%`
(`_input_str.endswith('%')`). -/
def prepInput (clip : String) : String :=
  let l := readClipboard clip.data
  let l := if (match l.getLast? with | some c => c == '%' | none => false)
    then l.dropLast else l
  String.mk l

def isContainerB (v : JValue) : Bool :=
  jtype v == .tdict || jtype v == .tlist

/-- A decoded value that is neither a container nor a string: feeding it
back to `json.loads` raises `TypeError`. -/
def scalarNS (v : JValue) : Bool :=
  !isContainerB v && !(jtype v == .tstr)

/-- Outcome of `_json_notify_and_exit_when_invalid`: return the parsed
value, notify-and-`sys.exit(1)`, or an uncaught `TypeError`. -/
inductive JRes where
  | okv (v : JValue)
  | invalid
  | typeError

/-- The final `if not json_dict or not isinstance(json_dict, (dict, list))`
check. -/
def jsonValidateFinal (v : JValue) : JRes :=
  if jTruthy v && isContainerB v then .okv v else .invalid

/-- The `for _try in range(5)` unwrapping loop, followed by the final
check. -/
def jsonValidateGo (fuel : Nat) : Nat → JValue → JRes
  | 0, v => jsonValidateFinal v
  | n + 1, v =>
    if isContainerB v then jsonValidateFinal v
    else
      match v with
      | .jstr t =>
        (match loads fuel t with
        | .ok v2 => jsonValidateGo fuel n v2
        | .error _ => .invalid)
      | _ => .typeError

/-- `Actions._json_notify_and_exit_when_invalid` on the clipboard text. -/
def jsonValidate (fuel : Nat) (clip : String) : JRes :=
  match loads fuel (prepInput clip) with
  | .error _ => .invalid
  | .ok v0 => jsonValidateGo fuel 5 v0

/-- Specification-side decode chain: `vchain fuel k v w` means `w` is
reached from `v` by exactly `k` further string decodes. -/
def vchain (fuel : Nat) : Nat → JValue → JValue → Prop
  | 0, v, w => v = w
  | k + 1, v, w => ∃ t u, v = .jstr t ∧ loads fuel t = .ok u ∧ vchain fuel k u w

theorem go_okv_iff (fuel : Nat) :
    ∀ n v w, jsonValidateGo fuel n v = .okv w ↔
      ∃ k, k ≤ n ∧ vchain fuel k v w ∧ isContainerB w = true ∧ jTruthy w = true := by
  intro n
  induction n with
  | zero =>
    intro v w
    constructor
    · intro h
      simp only [jsonValidateGo, jsonValidateFinal] at h
      split at h
      · cases h
        rename_i hc
        simp only [Bool.and_eq_true] at hc
        exact ⟨0, Nat.le_refl 0, rfl, hc.2, hc.1⟩
      · cases h
    · rintro ⟨k, hk, hch, hcont, htr⟩
      interval_cases k
      cases hch
      simp [jsonValidateGo, jsonValidateFinal, hcont, htr]
  | succ n ih =>
    intro v w
    by_cases hcont : isContainerB v = true
    · constructor
      · intro h
        simp only [jsonValidateGo, hcont, if_true, jsonValidateFinal] at h
        split at h
        · cases h
          rename_i hc
          simp at hc
          exact ⟨0, Nat.zero_le _, rfl, hcont, hc⟩
        · cases h
      · rintro ⟨k, hk, hch, hcontw, htrw⟩
        have hk0 : k = 0 := by
          cases k with
          | zero => rfl
          | succ j =>
            obtain ⟨t, u, hvt, _, _⟩ := hch
            subst hvt
            simp [isContainerB, jtype] at hcont
        subst hk0
        cases hch
        simp [jsonValidateGo, hcont, jsonValidateFinal, hcontw, htrw]
    · have hcont' : isContainerB v = false := by simpa using hcont
      cases v with
      | jstr t =>
        cases hld : loads fuel t with
        | error e =>
          constructor
          · intro h
            simp only [jsonValidateGo, isContainerB, jtype] at h
            simp only [hld] at h
            cases h
          · rintro ⟨k, hk, hch, hcontw, htrw⟩
            cases k with
            | zero =>
              cases hch
              simp [isContainerB, jtype] at hcontw
            | succ j =>
              obtain ⟨t2, u, hvt, hldu, _⟩ := hch
              cases hvt
              rw [hld] at hldu
              cases hldu
        | ok u =>
          constructor
          · intro h
            simp only [jsonValidateGo, isContainerB, jtype] at h
            simp only [hld] at h
            obtain ⟨k, hk, hch, hcontw, htrw⟩ := (ih u w).mp h
            exact ⟨k + 1, Nat.succ_le_succ hk, ⟨t, u, rfl, hld, hch⟩, hcontw, htrw⟩
          · rintro ⟨k, hk, hch, hcontw, htrw⟩
            cases k with
            | zero =>
              cases hch
              simp [isContainerB, jtype] at hcontw
            | succ j =>
              obtain ⟨t2, u2, hvt, hldu, hch2⟩ := hch
              cases hvt
              rw [hld] at hldu
              cases hldu
              simp only [jsonValidateGo, isContainerB, jtype]
              simp only [hld]
              exact (ih u w).mpr ⟨j, Nat.le_of_succ_le_succ hk, hch2, hcontw, htrw⟩
      | jnull =>
        constructor
        · intro h
          simp [jsonValidateGo, isContainerB, jtype] at h
        · rintro ⟨k, hk, hch, hcontw, htrw⟩
          cases k with
          | zero => cases hch; simp [isContainerB, jtype] at hcontw
          | succ j => obtain ⟨t, u, hvt, _, _⟩ := hch; cases hvt
      | jbool b =>
        constructor
        · intro h
          simp [jsonValidateGo, isContainerB, jtype] at h
        · rintro ⟨k, hk, hch, hcontw, htrw⟩
          cases k with
          | zero => cases hch; simp [isContainerB, jtype] at hcontw
          | succ j => obtain ⟨t, u, hvt, _, _⟩ := hch; cases hvt
      | jint m =>
        constructor
        · intro h
          simp [jsonValidateGo, isContainerB, jtype] at h
        · rintro ⟨k, hk, hch, hcontw, htrw⟩
          cases k with
          | zero => cases hch; simp [isContainerB, jtype] at hcontw
          | succ j => obtain ⟨t, u, hvt, _, _⟩ := hch; cases hvt
      | jfloat q =>
        constructor
        · intro h
          simp [jsonValidateGo, isContainerB, jtype] at h
        · rintro ⟨k, hk, hch, hcontw, htrw⟩
          cases k with
          | zero => cases hch; simp [isContainerB, jtype] at hcontw
          | succ j => obtain ⟨t, u, hvt, _, _⟩ := hch; cases hvt
      | jlist xs => simp [isContainerB, jtype] at hcont'
      | jdict kvs => simp [isContainerB, jtype] at hcont'

theorem go_typeError_iff (fuel : Nat) :
    ∀ n v, jsonValidateGo fuel n v = .typeError ↔
      ∃ k w, k < n ∧ vchain fuel k v w ∧ scalarNS w = true := by
  intro n
  induction n with
  | zero =>
    intro v
    constructor
    · intro h
      simp only [jsonValidateGo, jsonValidateFinal] at h
      split at h <;> cases h
    · rintro ⟨k, w, hk, _, _⟩
      exact absurd hk (Nat.not_lt_zero k)
  | succ n ih =>
    intro v
    by_cases hcont : isContainerB v = true
    · constructor
      · intro h
        simp only [jsonValidateGo, hcont, if_true, jsonValidateFinal] at h
        split at h <;> cases h
      · rintro ⟨k, w, hk, hch, hsc⟩
        cases k with
        | zero =>
          cases hch
          simp [scalarNS, hcont] at hsc
        | succ j =>
          obtain ⟨t, u, hvt, _, _⟩ := hch
          subst hvt
          simp [isContainerB, jtype] at hcont
    · cases v with
      | jstr t =>
        cases hld : loads fuel t with
        | error e =>
          constructor
          · intro h
            simp only [jsonValidateGo, isContainerB, jtype] at h
            simp only [hld] at h
            cases h
          · rintro ⟨k, w, hk, hch, hsc⟩
            cases k with
            | zero =>
              cases hch
              simp [scalarNS, isContainerB, jtype] at hsc
            | succ j =>
              obtain ⟨t2, u, hvt, hldu, _⟩ := hch
              cases hvt
              rw [hld] at hldu
              cases hldu
        | ok u =>
          constructor
          · intro h
            simp only [jsonValidateGo, isContainerB, jtype] at h
            simp only [hld] at h
            obtain ⟨k, w, hk, hch, hsc⟩ := (ih u).mp h
            exact ⟨k + 1, w, Nat.succ_lt_succ hk, ⟨t, u, rfl, hld, hch⟩, hsc⟩
          · rintro ⟨k, w, hk, hch, hsc⟩
            cases k with
            | zero =>
              cases hch
              simp [scalarNS, isContainerB, jtype] at hsc
            | succ j =>
              obtain ⟨t2, u2, hvt, hldu, hch2⟩ := hch
              cases hvt
              rw [hld] at hldu
              cases hldu
              simp only [jsonValidateGo, isContainerB, jtype]
              simp only [hld]
              exact (ih u).mpr ⟨j, w, Nat.lt_of_succ_lt_succ hk, hch2, hsc⟩
      | jnull =>
        constructor
        · intro _
          exact ⟨0, .jnull, Nat.succ_pos n, rfl, rfl⟩
        · intro _
          simp [jsonValidateGo, isContainerB, jtype]
      | jbool b =>
        constructor
        · intro _
          exact ⟨0, .jbool b, Nat.succ_pos n, rfl, rfl⟩
        · intro _
          simp [jsonValidateGo, isContainerB, jtype]
      | jint m =>
        constructor
        · intro _
          exact ⟨0, .jint m, Nat.succ_pos n, rfl, rfl⟩
        · intro _
          simp [jsonValidateGo, isContainerB, jtype]
      | jfloat q =>
        constructor
        · intro _
          exact ⟨0, .jfloat q, Nat.succ_pos n, rfl, rfl⟩
        · intro _
          simp [jsonValidateGo, isContainerB, jtype]
      | jlist xs => simp [isContainerB, jtype] at hcont
      | jdict kvs => simp [isContainerB, jtype] at hcont

/-- The acceptance condition of the amended claim C4: some decode chain of
at most five string-unwrapping steps from the prepared input reaches a
non-empty dict or list. -/
def acceptsC4 (fuel : Nat) (clip : String) (w : JValue) : Prop :=
  ∃ v0 k, loads fuel (prepInput clip) = .ok v0 ∧ k ≤ 5 ∧ vchain fuel k v0 w ∧
    isContainerB w = true ∧ jTruthy w = true

/-- The TypeError condition of the amended claim C4: within the first five
unwraps the chain surfaces a non-string scalar. -/
def typeErrsC4 (fuel : Nat) (clip : String) : Prop :=
  ∃ v0 k w, loads fuel (prepInput clip) = .ok v0 ∧ k < 5 ∧ vchain fuel k v0 w ∧
    scalarNS w = true

/-- Claim C4 (amended): the validator returns the parsed object exactly when
a ≤ 5-step string-decode chain from the prepared clipboard text reaches a
NON-EMPTY dict or list; it raises an uncaught `TypeError` exactly when an
intermediate decode yields a non-string scalar; in every other case it
notifies and exits 1. -/
theorem jsonValidate_amended (fuel : Nat) (clip : String) :
    (∀ w, jsonValidate fuel clip = .okv w ↔ acceptsC4 fuel clip w) ∧
    (jsonValidate fuel clip = .typeError ↔ typeErrsC4 fuel clip) ∧
    (jsonValidate fuel clip = .invalid ↔
      (∀ w, ¬acceptsC4 fuel clip w) ∧ ¬typeErrsC4 fuel clip) := by
  have hOk : ∀ w, jsonValidate fuel clip = .okv w ↔ acceptsC4 fuel clip w := by
    intro w
    cases hld : loads fuel (prepInput clip) with
    | error e =>
      simp only [jsonValidate, hld, acceptsC4]
      constructor
      · intro h; cases h
      · rintro ⟨v0, k, hld2, _⟩
        cases hld2
    | ok v0 =>
      simp only [jsonValidate, hld, acceptsC4]
      rw [go_okv_iff]
      constructor
      · rintro ⟨k, hk, hch, hc, ht⟩
        exact ⟨v0, k, rfl, hk, hch, hc, ht⟩
      · rintro ⟨v0', k, hld2, hk, hch, hc, ht⟩
        cases hld2
        exact ⟨k, hk, hch, hc, ht⟩
  have hTe : jsonValidate fuel clip = .typeError ↔ typeErrsC4 fuel clip := by
    cases hld : loads fuel (prepInput clip) with
    | error e =>
      simp only [jsonValidate, hld, typeErrsC4]
      constructor
      · intro h; cases h
      · rintro ⟨v0, k, w, hld2, _⟩
        cases hld2
    | ok v0 =>
      simp only [jsonValidate, hld, typeErrsC4]
      rw [go_typeError_iff]
      constructor
      · rintro ⟨k, w, hk, hch, hsc⟩
        exact ⟨v0, k, w, rfl, hk, hch, hsc⟩
      · rintro ⟨v0', k, w, hld2, hk, hch, hsc⟩
        cases hld2
        exact ⟨k, w, hk, hch, hsc⟩
  refine ⟨hOk, hTe, ?_⟩
  cases hres : jsonValidate fuel clip with
  | okv w =>
    constructor
    · intro h; cases h
    · rintro ⟨hna, _⟩
      exact absurd ((hOk w).mp hres) (hna w)
  | invalid =>
    constructor
    · intro _
      refine ⟨fun w hw => ?_, fun ht => ?_⟩
      · rw [← hOk w] at hw
        rw [hres] at hw
        cases hw
      · rw [← hTe] at ht
        rw [hres] at ht
        cases ht
    · intro _
      rfl
  | typeError =>
    constructor
    · intro h; cases h
    · rintro ⟨_, hnt⟩
      exact absurd (hTe.mp hres) hnt

/-- Claim C4 as stated is false at two inputs: the empty dict literal parses
as a JSON dict yet is rejected (emptiness makes it falsy), and the scalar
"5" — which the claim says should notify-and-exit — instead raises an
uncaught `TypeError` when the loop feeds the int back to `json.loads`. -/
theorem jsonValidate_claim_counterexample :
    jsonValidate 100 "\x7b\x7d" = .invalid ∧ jsonValidate 100 "5" = .typeError :=
  ⟨rfl, rfl⟩

/-! ### Claim C9: `Actions._sort_dicts_and_lists`

The development below models the pieces the function uses — Python `<`
(`cltE`, a partial comparison raising `TypeError` outside number/number,
str/str and list/list comparisons), `sorted()` (`pisort`, raising when some
pair of distinct positions is incomparable), `json.dumps` (`dumpsC`, whose
relevant properties are determinism and injectivity, proved via a reader
`dread`), and the dedup-by-dumps fallback — and proves the function
idempotent. -/

theorem charsLtB_irrefl (a : List Char) : charsLtB a a = false := by
  induction a with
  | nil => rfl
  | cons c cs ih => simp [charsLtB, ih]

theorem charsLtB_asymm (a : List Char) :
    ∀ b, charsLtB a b = true → charsLtB b a = false := by
  induction a with
  | nil =>
    intro b h
    cases b with
    | nil => simp [charsLtB] at h
    | cons d ds => simp [charsLtB]
  | cons c cs ih =>
    intro b h
    cases b with
    | nil => simp [charsLtB] at h
    | cons d ds =>
      simp only [charsLtB] at h ⊢
      by_cases h1 : c.toNat < d.toNat
      · have h2 : ¬ d.toNat < c.toNat := by omega
        simp [h1, h2]
      · by_cases h2 : d.toNat < c.toNat
        · simp [h1, h2] at h
        · simp only [h1, h2, if_false] at h ⊢
          exact ih ds h

theorem charsLtB_trans (a : List Char) :
    ∀ b c, charsLtB a b = true → charsLtB b c = true → charsLtB a c = true := by
  induction a with
  | nil =>
    intro b c hab hbc
    cases b with
    | nil => simp [charsLtB] at hab
    | cons d ds =>
      cases c with
      | nil => simp [charsLtB] at hbc
      | cons e es => simp [charsLtB]
  | cons x xs ih =>
    intro b c hab hbc
    cases b with
    | nil => simp [charsLtB] at hab
    | cons y ys =>
      cases c with
      | nil => simp [charsLtB] at hbc
      | cons z zs =>
        simp only [charsLtB] at hab hbc ⊢
        by_cases h1 : x.toNat < y.toNat
        · by_cases h2 : y.toNat < z.toNat
          · have : x.toNat < z.toNat := by omega
            simp [this]
          · by_cases h3 : z.toNat < y.toNat
            · simp [h2, h3] at hbc
            · have hyz : y.toNat = z.toNat := by omega
              have : x.toNat < z.toNat := by omega
              simp [this]
        · by_cases h1b : y.toNat < x.toNat
          · simp [h1, h1b] at hab
          · have hxy : x.toNat = y.toNat := by omega
            simp only [h1, h1b, if_false] at hab
            by_cases h2 : y.toNat < z.toNat
            · have : x.toNat < z.toNat := by omega
              simp [this]
            · by_cases h3 : z.toNat < y.toNat
              · simp [h2, h3] at hbc
              · simp only [h2, h3, if_false] at hbc
                have h4 : ¬ x.toNat < z.toNat := by omega
                have h5 : ¬ z.toNat < x.toNat := by omega
                simp only [h4, h5, if_false]
                exact ih ys zs hab hbc

theorem charsLtB_total_eq (a : List Char) :
    ∀ b, charsLtB a b = false → charsLtB b a = false → a = b := by
  induction a with
  | nil =>
    intro b hab _
    cases b with
    | nil => rfl
    | cons d ds => simp [charsLtB] at hab
  | cons c cs ih =>
    intro b hab hba
    cases b with
    | nil => simp [charsLtB] at hba
    | cons d ds =>
      simp only [charsLtB] at hab hba
      by_cases h1 : c.toNat < d.toNat
      · simp [h1] at hab
      · by_cases h2 : d.toNat < c.toNat
        · simp [h1, h2] at hab
          simp [h2] at hba
        · have hcd : c.toNat = d.toNat := by omega
          have hc : c = d := Char.eq_of_val_eq (UInt32.ext hcd)
          simp only [h1, h2, if_false] at hab hba
          have h3 : ¬ d.toNat < c.toNat := h2
          rw [hc]
          rw [ih ds hab (by simpa [hc] using hba)]

theorem strLtS_asymm (a b : String) (h : strLtS a b = true) : strLtS b a = false :=
  charsLtB_asymm a.data b.data h

theorem strLtS_trans (a b c : String) (h1 : strLtS a b = true) (h2 : strLtS b c = true) :
    strLtS a c = true :=
  charsLtB_trans a.data b.data c.data h1 h2

theorem strLtS_total_eq (a b : String) (h1 : strLtS a b = false)
    (h2 : strLtS b a = false) : a = b := by
  cases a with
  | mk la =>
    cases b with
    | mk lb =>
      have := charsLtB_total_eq la lb h1 h2
      rw [this]

/-! Python `<` on canonical values: total on numbers and strings,
lexicographic with `==`-skip on lists, `TypeError` otherwise. -/

mutual

def cltE : CV → CV → Except Unit Bool
  | .cnum a, .cnum b => .ok (decide (a < b))
  | .cstr a, .cstr b => .ok (strLtS a b)
  | .clist xs, .clist ys => clexE xs ys
  | _, _ => .error ()

def clexE : List CV → List CV → Except Unit Bool
  | [], [] => .ok false
  | [], _ :: _ => .ok true
  | _ :: _, [] => .ok false
  | x :: xs, y :: ys => if x == y then clexE xs ys else cltE x y

end

theorem cltE_asym_aux :
    ∀ n, ∀ a b : CV, sizeOf a ≤ n → cltE a b = .ok true → cltE b a = .ok false := by
  intro n
  induction n with
  | zero =>
    intro a b h
    cases a <;> simp at h
  | succ n ih =>
    intro a b ha h
    have hlist : ∀ (xs ys : List CV), (∀ x ∈ xs, sizeOf x ≤ n) →
        clexE xs ys = .ok true → clexE ys xs = .ok false := by
      intro xs
      induction xs with
      | nil =>
        intro ys _ hxy
        cases ys with
        | nil => simp [clexE] at hxy
        | cons y ys => simp [clexE]
      | cons x xs ihx =>
        intro ys hx hxy
        cases ys with
        | nil => simp [clexE] at hxy
        | cons y ys =>
          simp only [clexE] at hxy ⊢
          by_cases heq : x == y
          · have hxeq : x = y := by simpa using heq
            subst hxeq
            simp only [beq_self_eq_true, if_true] at hxy ⊢
            exact ihx ys (fun z hz => hx z (by simp [hz])) hxy
          · have hne : ¬ x = y := by simpa using heq
            have heqf : (x == y) = false := beq_eq_false_iff_ne.mpr hne
            have heq2 : (y == x) = false :=
              beq_eq_false_iff_ne.mpr (fun hc => hne hc.symm)
            simp only [heqf, heq2, Bool.false_eq_true, if_false] at hxy ⊢
            exact ih x y (hx x (by simp)) hxy
    cases a with
    | cnull => simp [cltE] at h
    | cnum q =>
      cases b with
      | cnum r =>
        simp only [cltE, Except.ok.injEq, decide_eq_true_eq] at h ⊢
        simp [not_lt.mpr (le_of_lt h)]
      | cnull => simp [cltE] at h
      | cstr s => simp [cltE] at h
      | clist ys => simp [cltE] at h
      | cdict kvs => simp [cltE] at h
    | cstr s =>
      cases b with
      | cstr t =>
        simp only [cltE, Except.ok.injEq] at h ⊢
        exact strLtS_asymm s t h
      | cnull => simp [cltE] at h
      | cnum r => simp [cltE] at h
      | clist ys => simp [cltE] at h
      | cdict kvs => simp [cltE] at h
    | clist xs =>
      cases b with
      | clist ys =>
        simp only [cltE] at h ⊢
        refine hlist xs ys (fun z hz => ?_) h
        have h1 : sizeOf z < sizeOf xs := List.sizeOf_lt_of_mem hz
        have h2 : sizeOf (CV.clist xs) = 1 + sizeOf xs := by simp
        omega
      | cnull => simp [cltE] at h
      | cnum r => simp [cltE] at h
      | cstr s => simp [cltE] at h
      | cdict kvs => simp [cltE] at h
    | cdict kvs => simp [cltE] at h

theorem cltE_asym (a b : CV) (h : cltE a b = .ok true) : cltE b a = .ok false :=
  cltE_asym_aux (sizeOf a) a b (Nat.le_refl _) h

theorem cltE_defsym_aux :
    ∀ n, ∀ a b : CV, sizeOf a ≤ n → (cltE a b).isOk = true → (cltE b a).isOk = true := by
  intro n
  induction n with
  | zero =>
    intro a b h
    cases a <;> simp at h
  | succ n ih =>
    intro a b ha h
    have hlist : ∀ (xs ys : List CV), (∀ x ∈ xs, sizeOf x ≤ n) →
        (clexE xs ys).isOk = true → (clexE ys xs).isOk = true := by
      intro xs
      induction xs with
      | nil =>
        intro ys _ hxy
        cases ys <;> simp [clexE, Except.isOk, Except.toBool]
      | cons x xs ihx =>
        intro ys hx hxy
        cases ys with
        | nil => simp [clexE, Except.isOk, Except.toBool]
        | cons y ys =>
          simp only [clexE] at hxy ⊢
          by_cases heq : x == y
          · have hxeq : x = y := by simpa using heq
            subst hxeq
            simp only [beq_self_eq_true, if_true] at hxy ⊢
            exact ihx ys (fun z hz => hx z (by simp [hz])) hxy
          · have hne : ¬ x = y := by simpa using heq
            have heqf : (x == y) = false := beq_eq_false_iff_ne.mpr hne
            have heq2 : (y == x) = false :=
              beq_eq_false_iff_ne.mpr (fun hc => hne hc.symm)
            simp only [heqf, heq2, Bool.false_eq_true, if_false] at hxy ⊢
            exact ih x y (hx x (by simp)) hxy
    cases a with
    | cnull => simp [cltE, Except.isOk, Except.toBool] at h
    | cnum q =>
      cases b with
      | cnum r => simp [cltE, Except.isOk, Except.toBool]
      | cnull => simp [cltE, Except.isOk, Except.toBool] at h
      | cstr s => simp [cltE, Except.isOk, Except.toBool] at h
      | clist ys => simp [cltE, Except.isOk, Except.toBool] at h
      | cdict kvs => simp [cltE, Except.isOk, Except.toBool] at h
    | cstr s =>
      cases b with
      | cstr t => simp [cltE, Except.isOk, Except.toBool]
      | cnull => simp [cltE, Except.isOk, Except.toBool] at h
      | cnum r => simp [cltE, Except.isOk, Except.toBool] at h
      | clist ys => simp [cltE, Except.isOk, Except.toBool] at h
      | cdict kvs => simp [cltE, Except.isOk, Except.toBool] at h
    | clist xs =>
      cases b with
      | clist ys =>
        simp only [cltE] at h ⊢
        refine hlist xs ys (fun z hz => ?_) h
        have h1 : sizeOf z < sizeOf xs := List.sizeOf_lt_of_mem hz
        have h2 : sizeOf (CV.clist xs) = 1 + sizeOf xs := by simp
        omega
      | cnull => simp [cltE, Except.isOk, Except.toBool] at h
      | cnum r => simp [cltE, Except.isOk, Except.toBool] at h
      | cstr s => simp [cltE, Except.isOk, Except.toBool] at h
      | cdict kvs => simp [cltE, Except.isOk, Except.toBool] at h
    | cdict kvs => simp [cltE, Except.isOk, Except.toBool] at h

theorem cltE_defsym (a b : CV) (h : (cltE a b).isOk = true) : (cltE b a).isOk = true :=
  cltE_defsym_aux (sizeOf a) a b (Nat.le_refl _) h

theorem cltE_trans_aux :
    ∀ n, ∀ a b c : CV, sizeOf a ≤ n → cltE a b = .ok true → cltE b c = .ok true →
      (cltE a c).isOk = true → cltE a c = .ok true := by
  intro n
  induction n with
  | zero =>
    intro a b c h
    cases a <;> simp at h
  | succ n ih =>
    intro a b c ha h1 h2 hok
    have hlist : ∀ (xs ys zs : List CV), (∀ x ∈ xs, sizeOf x ≤ n) →
        clexE xs ys = .ok true → clexE ys zs = .ok true →
        (clexE xs zs).isOk = true → clexE xs zs = .ok true := by
      intro xs
      induction xs with
      | nil =>
        intro ys zs _ hxy hyz _
        cases ys with
        | nil => simp [clexE] at hxy
        | cons y ys =>
          cases zs with
          | nil => simp [clexE] at hyz
          | cons z zs => simp [clexE]
      | cons x xs ihx =>
        intro ys zs hx hxy hyz hok2
        cases ys with
        | nil => simp [clexE] at hxy
        | cons y ys =>
          cases zs with
          | nil => simp [clexE] at hyz
          | cons z zs =>
            simp only [clexE] at hxy hyz hok2 ⊢
            by_cases e1 : (x == y) = true
            · have hxeq : x = y := by simpa using e1
              subst hxeq
              simp only [beq_self_eq_true, if_true] at hxy
              by_cases e2 : (x == z) = true
              · have hyeq : x = z := by simpa using e2
                subst hyeq
                simp only [beq_self_eq_true, if_true] at hyz hok2 ⊢
                exact ihx ys zs (fun w hw => hx w (by simp [hw])) hxy hyz hok2
              · simp only [e2, Bool.false_eq_true, if_false] at hok2 ⊢
                simp only [e2, Bool.false_eq_true, if_false] at hyz
                exact hyz
            · simp only [e1, Bool.false_eq_true, if_false] at hxy
              by_cases e2 : (y == z) = true
              · have hyeq : y = z := by simpa using e2
                subst hyeq
                have e3 : (x == y) = false := by simpa using e1
                simp only [e3, Bool.false_eq_true, if_false]
                exact hxy
              · simp only [e2, Bool.false_eq_true, if_false] at hyz
                by_cases e3 : (x == z) = true
                · have hxz : x = z := by simpa using e3
                  subst hxz
                  have := cltE_asym x y hxy
                  rw [hyz] at this
                  cases this
                · simp only [e3, Bool.false_eq_true, if_false] at hok2 ⊢
                  exact ih x y z (hx x (by simp)) hxy hyz hok2
    cases a with
    | cnull => simp [cltE] at h1
    | cdict kvs => simp [cltE] at h1
    | cnum q =>
      cases b with
      | cnum r =>
        cases c with
        | cnum s =>
          simp only [cltE, Except.ok.injEq, decide_eq_true_eq] at h1 h2 ⊢
          exact lt_trans h1 h2
        | cnull => simp [cltE] at h2
        | cstr t => simp [cltE] at h2
        | clist ys => simp [cltE] at h2
        | cdict kvs => simp [cltE] at h2
      | cnull => simp [cltE] at h1
      | cstr t => simp [cltE] at h1
      | clist ys => simp [cltE] at h1
      | cdict kvs => simp [cltE] at h1
    | cstr s =>
      cases b with
      | cstr t =>
        cases c with
        | cstr u =>
          simp only [cltE, Except.ok.injEq] at h1 h2 ⊢
          exact strLtS_trans s t u h1 h2
        | cnull => simp [cltE] at h2
        | cnum r => simp [cltE] at h2
        | clist ys => simp [cltE] at h2
        | cdict kvs => simp [cltE] at h2
      | cnull => simp [cltE] at h1
      | cnum r => simp [cltE] at h1
      | clist ys => simp [cltE] at h1
      | cdict kvs => simp [cltE] at h1
    | clist xs =>
      cases b with
      | clist ys =>
        cases c with
        | clist zs =>
          simp only [cltE] at h1 h2 hok ⊢
          refine hlist xs ys zs (fun z hz => ?_) h1 h2 hok
          have hsz : sizeOf z < sizeOf xs := List.sizeOf_lt_of_mem hz
          have hsz2 : sizeOf (CV.clist xs) = 1 + sizeOf xs := by simp
          omega
        | cnull => simp [cltE] at h2
        | cnum r => simp [cltE] at h2
        | cstr t => simp [cltE] at h2
        | cdict kvs => simp [cltE] at h2
      | cnull => simp [cltE] at h1
      | cnum r => simp [cltE] at h1
      | cstr t => simp [cltE] at h1
      | cdict kvs => simp [cltE] at h1

theorem cltE_trans (a b c : CV) (h1 : cltE a b = .ok true) (h2 : cltE b c = .ok true)
    (hok : (cltE a c).isOk = true) : cltE a c = .ok true :=
  cltE_trans_aux (sizeOf a) a b c (Nat.le_refl _) h1 h2 hok

theorem clexE_self (xs : List CV) : clexE xs xs = .ok false := by
  induction xs with
  | nil => rfl
  | cons x xs ih => simp [clexE, ih]

/-- A canonical value incomparable with itself is `None` or a dict. -/
theorem cltE_self_err (c : CV) (h : (cltE c c).isOk = false) :
    c = .cnull ∨ ∃ kvs, c = .cdict kvs := by
  cases c with
  | cnull => exact Or.inl rfl
  | cnum q => simp [cltE, Except.isOk, Except.toBool] at h
  | cstr s => simp [cltE, Except.isOk, Except.toBool] at h
  | clist xs => simp [cltE, clexE_self, Except.isOk, Except.toBool] at h
  | cdict kvs => exact Or.inr ⟨kvs, rfl⟩

/-- `None` and dicts are incomparable with everything (both directions). -/
theorem cltE_err_all (c x : CV) (h : c = .cnull ∨ ∃ kvs, c = .cdict kvs) :
    (cltE c x).isOk = false ∧ (cltE x c).isOk = false := by
  rcases h with h | ⟨kvs, h⟩ <;> subst h <;>
    cases x <;> simp [cltE, Except.isOk, Except.toBool]

/-! ### Properties of the `sorted()` model `pisort` -/

theorem pinsert_perm (lt : α → α → Bool) (y : α) (l : List α) :
    (pinsert lt y l).Perm (y :: l) := by
  induction l with
  | nil => exact List.Perm.refl _
  | cons x xs ih =>
    simp only [pinsert]
    by_cases hlt : lt y x = true
    · simp [hlt]
    · simp only [hlt, Bool.false_eq_true, if_false]
      exact (ih.cons x).trans (List.Perm.swap y x xs)

theorem mem_pinsert (lt : α → α → Bool) (y : α) (l : List α) (z : α) :
    z ∈ pinsert lt y l ↔ z = y ∨ z ∈ l := by
  rw [(pinsert_perm lt y l).mem_iff]
  simp

theorem pisort_foldl_perm (lt : α → α → Bool) :
    ∀ (l acc : List α), (l.foldl (fun acc y => pinsert lt y acc) acc).Perm (acc ++ l) := by
  intro l
  induction l with
  | nil => intro acc; simp
  | cons y l ih =>
    intro acc
    have h1 := ih (pinsert lt y acc)
    have h2 : (pinsert lt y acc ++ l).Perm (acc ++ y :: l) := by
      have h3 : (pinsert lt y acc).Perm (y :: acc) := pinsert_perm lt y acc
      exact (h3.append_right l).trans List.perm_middle.symm
    simp only [List.foldl_cons]
    exact h1.trans h2

theorem pisort_perm (lt : α → α → Bool) (l : List α) : (pisort lt l).Perm l := by
  have := pisort_foldl_perm lt l []
  simpa [pisort] using this

theorem pinsert_append (lt : α → α → Bool) (y : α) :
    ∀ l : List α, (∀ x ∈ l, lt y x = false) → pinsert lt y l = l ++ [y] := by
  intro l
  induction l with
  | nil => intro _; rfl
  | cons x xs ih =>
    intro h
    have hx : lt y x = false := h x (by simp)
    simp only [pinsert, hx, Bool.false_eq_true, if_false, List.cons_append,
      List.cons.injEq, true_and]
    exact ih (fun z hz => h z (by simp [hz]))

theorem pisort_fix_aux (lt : α → α → Bool) :
    ∀ (l acc : List α),
      (∀ y ∈ l, ∀ x ∈ acc, lt y x = false) →
      l.Pairwise (fun a b => lt b a = false) →
      l.foldl (fun acc y => pinsert lt y acc) acc = acc ++ l := by
  intro l
  induction l with
  | nil => intro acc _ _; simp
  | cons y l ih =>
    intro acc hcross hpw
    have hy : ∀ x ∈ acc, lt y x = false := hcross y (by simp)
    simp only [List.foldl_cons, pinsert_append lt y acc hy]
    rw [ih (acc ++ [y]) ?hcross (List.Pairwise.sublist (List.sublist_cons_self y l) hpw)]
    · simp
    case hcross =>
      intro z hz x hx
      rcases (by simpa using hx : x ∈ acc ∨ x = y) with h | h
      · exact hcross z (by simp [hz]) x h
      · subst h
        exact (List.pairwise_cons.mp hpw).1 z hz

/-- A list already sorted (no later element strictly below an earlier one)
is a fixpoint of the sort. -/
theorem pisort_fix (lt : α → α → Bool) (l : List α)
    (h : l.Pairwise (fun a b => lt b a = false)) : pisort lt l = l := by
  have := pisort_fix_aux lt l [] (by simp) h
  simpa [pisort] using this

theorem pinsert_pairwise (lt : α → α → Bool) (P : α → Prop)
    (Ha : ∀ a, P a → ∀ b, P b → lt a b = true → lt b a = false)
    (Ht : ∀ a, P a → ∀ b, P b → ∀ c, P c →
      lt a b = true → lt b c = true → lt a c = true)
    (y : α) (hy : P y) :
    ∀ acc : List α, (∀ x ∈ acc, P x) →
      acc.Pairwise (fun a b => lt b a = false) →
      (pinsert lt y acc).Pairwise (fun a b => lt b a = false) := by
  intro acc
  induction acc with
  | nil => intro _ _; simp [pinsert]
  | cons x xs ih =>
    intro hmem hpw
    have hx : P x := hmem x (by simp)
    simp only [pinsert]
    by_cases hlt : lt y x = true
    · simp only [hlt, if_true]
      refine List.pairwise_cons.mpr ⟨?_, hpw⟩
      intro z hz
      rcases (by simpa using hz : z = x ∨ z ∈ xs) with h | h
      · subst h
        exact Ha y hy z hx hlt
      · by_cases hzy : lt z y = true
        · have hzx : lt z x = true :=
            Ht z (hmem z (by simp [h])) y hy x hx hzy hlt
          have := (List.pairwise_cons.mp hpw).1 z h
          rw [this] at hzx
          cases hzx
        · simpa using hzy
    · simp only [hlt, Bool.false_eq_true, if_false]
      refine List.pairwise_cons.mpr ⟨?_, ?_⟩
      · intro z hz
        rcases (mem_pinsert lt y xs z).mp hz with h | h
        · subst h
          simpa using hlt
        · exact (List.pairwise_cons.mp hpw).1 z h
      · exact ih (fun z hz => hmem z (by simp [hz])) (List.pairwise_cons.mp hpw).2

theorem pisort_sorted (lt : α → α → Bool) (P : α → Prop)
    (Ha : ∀ a, P a → ∀ b, P b → lt a b = true → lt b a = false)
    (Ht : ∀ a, P a → ∀ b, P b → ∀ c, P c →
      lt a b = true → lt b c = true → lt a c = true)
    (l : List α) (hl : ∀ x ∈ l, P x) :
    (pisort lt l).Pairwise (fun a b => lt b a = false) := by
  have main : ∀ (l2 acc : List α), (∀ x ∈ l2, P x) → (∀ x ∈ acc, P x) →
      acc.Pairwise (fun a b => lt b a = false) →
      (l2.foldl (fun acc y => pinsert lt y acc) acc).Pairwise
        (fun a b => lt b a = false) := by
    intro l2
    induction l2 with
    | nil => intro acc _ _ h; simpa using h
    | cons y l2 ih =>
      intro acc hl2 hacc hpw
      simp only [List.foldl_cons]
      refine ih _ (fun x hx => hl2 x (by simp [hx])) ?_ ?_
      · intro x hx
        rcases (mem_pinsert lt y acc x).mp hx with h | h
        · rw [h]; exact hl2 y (by simp)
        · exact hacc x h
      · exact pinsert_pairwise lt P Ha Ht y (hl2 y (by simp)) acc hacc hpw
  exact main l [] hl (by simp) (by simp)

/-! ### A model of `json.dumps`

`_sort_dicts_and_lists` uses `json.dumps(k)` only to key its fallback dedup
map, so the only properties of the rendering that matter are determinism and
injectivity.  The model renders with the default `(', ', ': ')` separators;
string escaping is simplified to the two structurally necessary escapes
(backslash and double quote), and a float is rendered as the injective
`num/den` form of its exact rational value — both stand-ins for CPython's
renderings, which are likewise injective on these values. -/

def digitChar (n : Nat) : Char := Char.ofNat (48 + n)

def natDigs (n : Nat) : List Char :=
  if h : n < 10 then [digitChar n]
  else natDigs (n / 10) ++ [digitChar (n % 10)]
decreasing_by exact Nat.div_lt_self (by omega) (by omega)

def intChars (n : Int) : List Char :=
  if n < 0 then '-' :: natDigs n.natAbs else natDigs n.natAbs

def floatChars (q : ℚ) : List Char :=
  intChars q.num ++ '/' :: natDigs q.den

def escChar (c : Char) : List Char :=
  if c == '"' then ['\\', '"'] else if c == '\\' then ['\\', '\\'] else [c]

def escChars : List Char → List Char
  | [] => []
  | c :: cs => escChar c ++ escChars cs

def renderKey (s : String) : List Char :=
  '"' :: (escChars s.data ++ ['"'])

mutual

def dumpsC : JValue → List Char
  | .jnull => ['n', 'u', 'l', 'l']
  | .jbool true => ['t', 'r', 'u', 'e']
  | .jbool false => ['f', 'a', 'l', 's', 'e']
  | .jint n => intChars n
  | .jfloat q => floatChars q
  | .jstr s => '"' :: (escChars s.data ++ ['"'])
  | .jlist xs => '[' :: (dumpsList xs ++ [']'])
  | .jdict kvs => '\x7b' :: (dumpsKVs kvs ++ ['\x7d'])

def dumpsList : List JValue → List Char
  | [] => []
  | [x] => dumpsC x
  | x :: y :: rest => dumpsC x ++ ',' :: ' ' :: dumpsList (y :: rest)

def dumpsKVs : List (String × JValue) → List Char
  | [] => []
  | [(k, v)] => renderKey k ++ ':' :: ' ' :: dumpsC v
  | (k, v) :: p :: rest =>
    renderKey k ++ ':' :: ' ' :: dumpsC v ++ ',' :: ' ' :: dumpsKVs (p :: rest)

end

/-! A reader for `dumpsC` output, used to prove `dumpsC` injective. -/

def dreadStr : List Char → Option (List Char × List Char)
  | [] => none
  | c :: cs =>
    if c == '"' then some ([], cs)
    else if c == '\\' then
      match cs with
      | d :: cs2 =>
        if d == '"' || d == '\\' then
          match dreadStr cs2 with
          | some (out, rest) => some (d :: out, rest)
          | none => none
        else none
      | [] => none
    else
      match dreadStr cs with
      | some (out, rest) => some (c :: out, rest)
      | none => none

def dreadNum (l : List Char) : Option (JValue × List Char) :=
  let neg := match l with | c :: _ => c == '-' | _ => false
  let l1 := if neg then l.tail else l
  let ds := l1.takeWhile Char.isDigit
  if ds.isEmpty then none
  else
    let l2 := l1.dropWhile Char.isDigit
    match l2 with
    | '/' :: r =>
      let ds2 := r.takeWhile Char.isDigit
      if ds2.isEmpty then none
      else
        let num : Int := if neg then -(digitsVal ds : Int) else (digitsVal ds : Int)
        some (.jfloat ((num : ℚ) / (digitsVal ds2 : ℚ)), r.dropWhile Char.isDigit)
    | _ =>
      some (.jint (if neg then -(digitsVal ds : Int) else (digitsVal ds : Int)), l2)

def dreadStrRes : Option (List Char × List Char) → Option (JValue × List Char)
  | some (cs, rest) => some (.jstr (String.mk cs), rest)
  | none => none

def dreadListRes : Option (List JValue × List Char) → Option (JValue × List Char)
  | some (vs, rest) => some (.jlist vs, rest)
  | none => none

def dreadDictRes : Option (List (String × JValue) × List Char) → Option (JValue × List Char)
  | some (kvs, rest) => some (.jdict kvs, rest)
  | none => none

def dreadStep (goE : List Char → Option (List JValue × List Char))
    (goM : List Char → Option (List (String × JValue) × List Char))
    (l : List Char) : Option (JValue × List Char) :=
  match l with
  | [] => none
  | c :: r =>
    if c == 'n' then
      match r with
      | 'u' :: 'l' :: 'l' :: r2 => some (.jnull, r2)
      | _ => none
    else if c == 't' then
      match r with
      | 'r' :: 'u' :: 'e' :: r2 => some (.jbool true, r2)
      | _ => none
    else if c == 'f' then
      match r with
      | 'a' :: 'l' :: 's' :: 'e' :: r2 => some (.jbool false, r2)
      | _ => none
    else if c == '"' then
      dreadStrRes (dreadStr r)
    else if c == '[' then
      match r with
      | ']' :: r2 => some (.jlist [], r2)
      | _ => dreadListRes (goE r)
    else if c == '\x7b' then
      match r with
      | '\x7d' :: r2 => some (.jdict [], r2)
      | _ => dreadDictRes (goM r)
    else dreadNum (c :: r)

def elemsConsRes (v : JValue) :
    Option (List JValue × List Char) → Option (List JValue × List Char)
  | some (vs, rest2) => some (v :: vs, rest2)
  | none => none

def elemTail (goE : List Char → Option (List JValue × List Char)) :
    Option (JValue × List Char) → Option (List JValue × List Char)
  | some (v, rest) =>
    (match rest with
    | ',' :: ' ' :: r2 => elemsConsRes v (goE r2)
    | ']' :: r2 => some ([v], r2)
    | _ => none)
  | none => none

def dreadElemsStep (go : List Char → Option (JValue × List Char))
    (goE : List Char → Option (List JValue × List Char))
    (l : List Char) : Option (List JValue × List Char) :=
  elemTail goE (go l)

def membersConsRes (kcs : List Char) (v : JValue) :
    Option (List (String × JValue) × List Char) →
      Option (List (String × JValue) × List Char)
  | some (kvs, rest) => some ((String.mk kcs, v) :: kvs, rest)
  | none => none

def memberTail (kcs : List Char)
    (goM : List Char → Option (List (String × JValue) × List Char)) :
    Option (JValue × List Char) → Option (List (String × JValue) × List Char)
  | some (v, r4) =>
    (match r4 with
    | ',' :: ' ' :: r5 => membersConsRes kcs v (goM r5)
    | '\x7d' :: r5 => some ([(String.mk kcs, v)], r5)
    | _ => none)
  | none => none

def dreadMembersStep (go : List Char → Option (JValue × List Char))
    (goM : List Char → Option (List (String × JValue) × List Char))
    (l : List Char) : Option (List (String × JValue) × List Char) :=
  match l with
  | '"' :: r =>
    (match dreadStr r with
    | some (kcs, r2) =>
      (match r2 with
      | ':' :: ' ' :: r3 => memberTail kcs goM (go r3)
      | _ => none)
    | none => none)
  | _ => none

mutual

def dread : Nat → List Char → Option (JValue × List Char)
  | 0, _ => none
  | fuel + 1, l => dreadStep (dreadElems fuel) (dreadMembers fuel) l

def dreadElems : Nat → List Char → Option (List JValue × List Char)
  | 0, _ => none
  | fuel + 1, l => dreadElemsStep (dread fuel) (dreadElems fuel) l

def dreadMembers : Nat → List Char → Option (List (String × JValue) × List Char)
  | 0, _ => none
  | fuel + 1, l => dreadMembersStep (dread fuel) (dreadMembers fuel) l

end

/-! Roundtrip: `dread` parses back exactly what `dumpsC` rendered, which
yields injectivity of `dumpsC`. -/

theorem dreadStr_cons (c : Char) (cs : List Char) :
    dreadStr (c :: cs) =
      (if c == '"' then some ([], cs)
      else if c == '\\' then
        match cs with
        | d :: cs2 =>
          if d == '"' || d == '\\' then
            match dreadStr cs2 with
            | some (out, rest) => some (d :: out, rest)
            | none => none
          else none
        | [] => none
      else
        match dreadStr cs with
        | some (out, rest) => some (c :: out, rest)
        | none => none) := by
  conv_lhs => rw [dreadStr.eq_def]

theorem dreadStr_escChars (cs rest : List Char) :
    dreadStr (escChars cs ++ '"' :: rest) = some (cs, rest) := by
  induction cs with
  | nil => simp [escChars, dreadStr_cons]
  | cons c cs ih =>
    by_cases h1 : c = '"'
    · subst h1
      simp [escChars, escChar, dreadStr_cons, ih]
    · by_cases h2 : c = '\\'
      · subst h2
        simp [escChars, escChar, dreadStr_cons, ih]
      · have hb1 : (c == '"') = false := by simp [h1]
        have hb2 : (c == '\\') = false := by simp [h2]
        simp only [escChars, escChar, hb1, hb2, Bool.false_eq_true, if_false, List.cons_append,
          List.nil_append, List.singleton_append]
        rw [dreadStr_cons]
        simp [hb1, hb2, ih]

theorem digitChar_toNat (n : Nat) (h : n < 10) : (digitChar n).toNat = 48 + n := by
  interval_cases n <;> decide

theorem digitChar_isDigit (n : Nat) (h : n < 10) : (digitChar n).isDigit = true := by
  interval_cases n <;> decide

theorem natDigs_digits (n : Nat) : ∀ c ∈ natDigs n, c.isDigit = true := by
  induction n using Nat.strong_induction_on with
  | _ n ih =>
    rw [natDigs]
    split
    · rename_i h
      intro c hc
      rw [List.mem_singleton] at hc
      subst hc
      exact digitChar_isDigit n h
    · rename_i h
      intro c hc
      rw [List.mem_append] at hc
      rcases hc with hc | hc
      · exact ih (n / 10) (Nat.div_lt_self (by omega) (by omega)) c hc
      · rw [List.mem_singleton] at hc
        subst hc
        exact digitChar_isDigit (n % 10) (Nat.mod_lt _ (by omega))

theorem natDigs_ne_nil (n : Nat) : natDigs n ≠ [] := by
  rw [natDigs]
  split <;> simp

theorem digitsVal_append_single (a : List Char) (d : Char) :
    digitsVal (a ++ [d]) = digitsVal a * 10 + (d.toNat - 48) := by
  simp [digitsVal, List.foldl_append]

theorem digitsVal_natDigs (n : Nat) : digitsVal (natDigs n) = n := by
  induction n using Nat.strong_induction_on with
  | _ n ih =>
    rw [natDigs]
    split
    · rename_i h
      simp [digitsVal, digitChar_toNat n h]
    · rename_i h
      rw [digitsVal_append_single, ih (n / 10) (Nat.div_lt_self (by omega) (by omega)),
        digitChar_toNat (n % 10) (Nat.mod_lt _ (by omega))]
      omega

theorem takeWhile_append_all (p : Char → Bool) (a b : List Char)
    (h : ∀ c ∈ a, p c = true) :
    (a ++ b).takeWhile p = a ++ b.takeWhile p := by
  induction a with
  | nil => simp
  | cons c cs ih =>
    have hc := h c (by simp)
    have ih2 := ih (fun x hx => h x (by simp [hx]))
    simp [List.takeWhile_cons, hc, ih2]

theorem dropWhile_append_all (p : Char → Bool) (a b : List Char)
    (h : ∀ c ∈ a, p c = true) :
    (a ++ b).dropWhile p = b.dropWhile p := by
  induction a with
  | nil => simp
  | cons c cs ih =>
    have hc := h c (by simp)
    have ih2 := ih (fun x hx => h x (by simp [hx]))
    simp [List.dropWhile_cons, hc, ih2]

/-- A character that can legitimately follow a rendered value in `dumpsC`
output (or the end of input). -/
def termCh : List Char → Prop
  | [] => True
  | c :: _ => c = ',' ∨ c = ']' ∨ c = '\x7d'

theorem termCh_not_digit (rest : List Char) (h : termCh rest) :
    rest.takeWhile Char.isDigit = [] ∧ rest.dropWhile Char.isDigit = rest := by
  cases rest with
  | nil => simp
  | cons c r =>
    rcases h with h | h | h <;> subst h <;>
      simp [List.takeWhile_cons, List.dropWhile_cons, (by decide : Char.isDigit ',' = false),
        (by decide : Char.isDigit ']' = false), (by decide : Char.isDigit '\x7d' = false)]

theorem dreadNum_natDigs_aux (m : Nat) (rest : List Char) (h : termCh rest) :
    (natDigs m ++ rest).takeWhile Char.isDigit = natDigs m ∧
    (natDigs m ++ rest).dropWhile Char.isDigit = rest := by
  obtain ⟨ht, hd⟩ := termCh_not_digit rest h
  constructor
  · rw [takeWhile_append_all _ _ _ (natDigs_digits m), ht, List.append_nil]
  · rw [dropWhile_append_all _ _ _ (natDigs_digits m), hd]

theorem natDigs_isEmpty_false (m : Nat) : (natDigs m).isEmpty = false := by
  cases hnd : natDigs m with
  | nil => exact absurd hnd (natDigs_ne_nil _)
  | cons c cs => simp

theorem intChars_head (n : Int) :
    ∃ c cs, intChars n = c :: cs ∧ (c = '-' ∨ c.isDigit = true) := by
  rw [intChars]
  split
  · exact ⟨'-', natDigs n.natAbs, rfl, Or.inl rfl⟩
  · cases hnd : natDigs n.natAbs with
    | nil => exact absurd hnd (natDigs_ne_nil _)
    | cons c cs =>
      exact ⟨c, cs, rfl, Or.inr (natDigs_digits _ c (by rw [hnd]; simp))⟩

theorem termCh_not_slash (rest : List Char) (h : termCh rest) (r2 : List Char)
    (hr : rest = '/' :: r2) : False := by
  rw [hr] at h
  rcases h with h | h | h <;> exact absurd h (by decide)

theorem dreadNum_intChars (n : Int) (rest : List Char) (h : termCh rest) :
    dreadNum (intChars n ++ rest) = some (.jint n, rest) := by
  obtain ⟨ht, hd⟩ := dreadNum_natDigs_aux n.natAbs rest h
  have hne := natDigs_isEmpty_false n.natAbs
  by_cases hn : n < 0
  · have hic : intChars n = '-' :: natDigs n.natAbs := by rw [intChars, if_pos hn]
    rw [hic, List.cons_append]
    simp only [dreadNum, List.tail_cons, beq_self_eq_true, if_true, ht, hd, hne,
      Bool.false_eq_true, if_false, digitsVal_natDigs, eq_self_iff_true]
    split
    · rename_i r2
      exact (termCh_not_slash _ h r2 rfl).elim
    · have hv : -|n| = n := by rw [abs_of_neg hn, neg_neg]
      simp [hv]
  · have hic : intChars n = natDigs n.natAbs := by rw [intChars, if_neg hn]
    cases hnd : natDigs n.natAbs with
    | nil => exact absurd hnd (natDigs_ne_nil _)
    | cons c cs =>
      have hcd : c.isDigit = true := natDigs_digits _ c (by rw [hnd]; simp)
      have hcm : (c == '-') = false := by
        cases hb : c == '-' with
        | false => rfl
        | true =>
          have hceq : c = '-' := by simpa using hb
          rw [hceq] at hcd
          exact absurd hcd (by decide)
      have hdv : ((digitsVal (c :: cs) : Int)) = n := by
        rw [← hnd, digitsVal_natDigs]
        omega
      rw [hnd] at ht hd hne
      rw [List.cons_append] at ht hd
      rw [hic, hnd, List.cons_append]
      simp only [dreadNum, hcm, Bool.false_eq_true, if_false, ht, hd, hne]
      split
      · rename_i r2
        exact (termCh_not_slash _ h r2 rfl).elim
      · push_cast at hdv
        simp [hdv]

theorem slash_run_split (m : Nat) (X : List Char) :
    (natDigs m ++ '/' :: X).takeWhile Char.isDigit = natDigs m ∧
    (natDigs m ++ '/' :: X).dropWhile Char.isDigit = '/' :: X := by
  constructor
  · rw [takeWhile_append_all _ _ _ (natDigs_digits _)]
    simp [List.takeWhile_cons, (by decide : Char.isDigit '/' = false)]
  · rw [dropWhile_append_all _ _ _ (natDigs_digits _)]
    simp [List.dropWhile_cons, (by decide : Char.isDigit '/' = false)]

theorem dreadNum_floatChars (q : ℚ) (rest : List Char) (h : termCh rest) :
    dreadNum (floatChars q ++ rest) = some (.jfloat q, rest) := by
  obtain ⟨ht2, hd2⟩ := dreadNum_natDigs_aux q.den rest h
  obtain ⟨htM, hdM⟩ := slash_run_split q.num.natAbs (natDigs q.den ++ rest)
  have hneM := natDigs_isEmpty_false q.num.natAbs
  have hneD := natDigs_isEmpty_false q.den
  have hval : ∀ num : Int, num = q.num →
      ((num : ℚ) / ((digitsVal (natDigs q.den) : Nat) : ℚ)) = q := by
    intro num hnum
    rw [hnum, digitsVal_natDigs, Rat.num_div_den]
  by_cases hn : q.num < 0
  · have hfc : floatChars q ++ rest =
        '-' :: (natDigs q.num.natAbs ++ '/' :: (natDigs q.den ++ rest)) := by
      rw [floatChars, intChars, if_pos hn]
      simp [List.cons_append, List.append_assoc]
    rw [hfc]
    simp only [dreadNum, List.tail_cons, beq_self_eq_true, if_true, htM, hdM, hneM,
      Bool.false_eq_true, if_false, ht2, hneD]
    have hv := hval (-((digitsVal (natDigs q.num.natAbs) : Nat) : Int))
      (by rw [digitsVal_natDigs]; omega)
    push_cast at hv
    simp [hv, hd2]
  · have hicn : intChars q.num = natDigs q.num.natAbs := by rw [intChars, if_neg hn]
    cases hnd : natDigs q.num.natAbs with
    | nil => exact absurd hnd (natDigs_ne_nil _)
    | cons c cs =>
      have hcd : c.isDigit = true := natDigs_digits _ c (by rw [hnd]; simp)
      have hcm : (c == '-') = false := by
        cases hb : c == '-' with
        | false => rfl
        | true =>
          have hceq : c = '-' := by simpa using hb
          rw [hceq] at hcd
          exact absurd hcd (by decide)
      have hfc : floatChars q ++ rest =
          c :: (cs ++ '/' :: (natDigs q.den ++ rest)) := by
        rw [floatChars, hicn, hnd]
        simp [List.cons_append, List.append_assoc]
      rw [hnd, List.cons_append] at htM hdM
      rw [hnd] at hneM
      rw [hfc]
      simp only [dreadNum, hcm, Bool.false_eq_true, if_false, htM, hdM, hneM, ht2, hneD]
      have hv := hval ((digitsVal (c :: cs) : Nat) : Int)
        (by rw [← hnd, digitsVal_natDigs]; omega)
      push_cast at hv
      simp [hv, hd2]

theorem dread_succ (fuel : Nat) (l : List Char) :
    dread (fuel + 1) l = dreadStep (dreadElems fuel) (dreadMembers fuel) l := rfl

theorem dreadElems_succ (fuel : Nat) (l : List Char) :
    dreadElems (fuel + 1) l = dreadElemsStep (dread fuel) (dreadElems fuel) l := rfl

theorem dreadMembers_succ (fuel : Nat) (l : List Char) :
    dreadMembers (fuel + 1) l = dreadMembersStep (dread fuel) (dreadMembers fuel) l := rfl

theorem numStart_ne (c : Char) (h : c = '-' ∨ c.isDigit = true) (d : Char)
    (hd1 : ¬(d = '-')) (hd2 : d.isDigit = false) : (c == d) = false := by
  cases hb : c == d with
  | false => rfl
  | true =>
    have hcd : c = d := by simpa using hb
    subst hcd
    rcases h with h | h
    · exact absurd h hd1
    · simp [h] at hd2

theorem dread_succ_num (fuel : Nat) (c : Char) (r : List Char)
    (h : c = '-' ∨ c.isDigit = true) :
    dread (fuel + 1) (c :: r) = dreadNum (c :: r) := by
  have h1 := numStart_ne c h 'n' (by decide) (by decide)
  have h2 := numStart_ne c h 't' (by decide) (by decide)
  have h3 := numStart_ne c h 'f' (by decide) (by decide)
  have h4 := numStart_ne c h '"' (by decide) (by decide)
  have h5 := numStart_ne c h '[' (by decide) (by decide)
  have h6 := numStart_ne c h '\x7b' (by decide) (by decide)
  rw [dread_succ]
  simp only [dreadStep, h1, h2, h3, h4, h5, h6, Bool.false_eq_true, if_false]

theorem dread_succ_str (fuel : Nat) (r : List Char) :
    dread (fuel + 1) ('"' :: r) = dreadStrRes (dreadStr r) := by
  rw [dread_succ]
  simp [dreadStep]

theorem dread_succ_list (fuel : Nat) (c : Char) (cs : List Char) (hc : ¬(c = ']')) :
    dread (fuel + 1) ('[' :: c :: cs) = dreadListRes (dreadElems fuel (c :: cs)) := by
  rw [dread_succ]
  simp only [dreadStep, (by decide : ((('[' : Char)) == 'n') = false),
    (by decide : ((('[' : Char)) == 't') = false),
    (by decide : ((('[' : Char)) == 'f') = false),
    (by decide : ((('[' : Char)) == '"') = false), beq_self_eq_true,
    Bool.false_eq_true, if_false, if_true]
  split
  · rename_i r2 heq
    rw [List.cons.injEq] at heq
    exact absurd heq.1 hc
  · rfl

theorem dread_succ_dict (fuel : Nat) (c : Char) (cs : List Char) (hc : ¬(c = '\x7d')) :
    dread (fuel + 1) ('\x7b' :: c :: cs) = dreadDictRes (dreadMembers fuel (c :: cs)) := by
  rw [dread_succ]
  simp only [dreadStep, (by decide : ((('\x7b' : Char)) == 'n') = false),
    (by decide : ((('\x7b' : Char)) == 't') = false),
    (by decide : ((('\x7b' : Char)) == 'f') = false),
    (by decide : ((('\x7b' : Char)) == '"') = false),
    (by decide : ((('\x7b' : Char)) == '[') = false),
    beq_self_eq_true, Bool.false_eq_true, if_false, if_true]
  split
  · rename_i r2 heq
    rw [List.cons.injEq] at heq
    exact absurd heq.1 hc
  · rfl

theorem jv_sizeOf_pos (v : JValue) : 1 ≤ sizeOf v := by
  cases v <;> simp_arith

theorem lv_sizeOf_pos (xs : List JValue) : 1 ≤ sizeOf xs := by
  cases xs <;> simp_arith

theorem kv_sizeOf_pos (kvs : List (String × JValue)) : 1 ≤ sizeOf kvs := by
  cases kvs <;> simp_arith

theorem startCh_ne (c : Char) (h : c = '-' ∨ c.isDigit = true) :
    c ≠ ']' ∧ c ≠ '\x7d' := by
  constructor <;> (intro he; subst he; rcases h with h | h <;> exact absurd h (by decide))

theorem dumpsC_head (v : JValue) :
    ∃ c cs, dumpsC v = c :: cs ∧ c ≠ ']' ∧ c ≠ '\x7d' := by
  cases v with
  | jnull => exact ⟨'n', ['u', 'l', 'l'], by simp [dumpsC], by decide, by decide⟩
  | jbool b =>
    cases b with
    | true => exact ⟨'t', ['r', 'u', 'e'], by simp [dumpsC], by decide, by decide⟩
    | false => exact ⟨'f', ['a', 'l', 's', 'e'], by simp [dumpsC], by decide, by decide⟩
  | jint n =>
    obtain ⟨c, cs, hic, hs⟩ := intChars_head n
    obtain ⟨hn1, hn2⟩ := startCh_ne c hs
    exact ⟨c, cs, by simp [dumpsC, hic], hn1, hn2⟩
  | jfloat q =>
    obtain ⟨c, cs, hic, hs⟩ := intChars_head q.num
    obtain ⟨hn1, hn2⟩ := startCh_ne c hs
    exact ⟨c, cs ++ '/' :: natDigs q.den,
      by simp [dumpsC, floatChars, hic, List.cons_append], hn1, hn2⟩
  | jstr s => exact ⟨'"', escChars s.data ++ ['"'], by simp [dumpsC], by decide, by decide⟩
  | jlist xs => exact ⟨'[', dumpsList xs ++ [']'], by simp [dumpsC], by decide, by decide⟩
  | jdict kvs =>
    exact ⟨'\x7b', dumpsKVs kvs ++ ['\x7d'], by simp [dumpsC], by decide, by decide⟩

theorem sz_cons_j (x : JValue) (xs : List JValue) (fuel : Nat)
    (h : sizeOf (x :: xs) ≤ fuel + 1) : sizeOf x ≤ fuel ∧ sizeOf xs ≤ fuel := by
  rw [List.cons.sizeOf_spec] at h
  have h1 := lv_sizeOf_pos xs
  have h2 := jv_sizeOf_pos x
  omega

theorem sz_cons_kv (k : String) (v : JValue) (kvs : List (String × JValue)) (fuel : Nat)
    (h : sizeOf ((k, v) :: kvs) ≤ fuel + 1) : sizeOf v ≤ fuel ∧ sizeOf kvs ≤ fuel := by
  rw [List.cons.sizeOf_spec, Prod.mk.sizeOf_spec] at h
  have h1 := kv_sizeOf_pos kvs
  have h2 := jv_sizeOf_pos v
  omega

theorem dread_dumps (fuel : Nat) :
    (∀ v rest, sizeOf v ≤ fuel → termCh rest →
      dread fuel (dumpsC v ++ rest) = some (v, rest)) ∧
    (∀ xs rest, xs ≠ [] → sizeOf xs ≤ fuel →
      dreadElems fuel (dumpsList xs ++ ']' :: rest) = some (xs, rest)) ∧
    (∀ kvs rest, kvs ≠ [] → sizeOf kvs ≤ fuel →
      dreadMembers fuel (dumpsKVs kvs ++ '\x7d' :: rest) = some (kvs, rest)) := by
  induction fuel with
  | zero =>
    refine ⟨?_, ?_, ?_⟩
    · intro v rest hs _
      have := jv_sizeOf_pos v
      omega
    · intro xs rest hne hs
      have := lv_sizeOf_pos xs
      omega
    · intro kvs rest hne hs
      have := kv_sizeOf_pos kvs
      omega
  | succ fuel ih =>
    obtain ⟨ih1, ih2, ih3⟩ := ih
    refine ⟨?_, ?_, ?_⟩
    · intro v rest hs hrest
      cases v with
      | jnull =>
        rw [show dumpsC JValue.jnull ++ rest = 'n' :: 'u' :: 'l' :: 'l' :: rest from
          by simp [dumpsC]]
        rfl
      | jbool b =>
        cases b with
        | true =>
          rw [show dumpsC (JValue.jbool true) ++ rest = 't' :: 'r' :: 'u' :: 'e' :: rest from
            by simp [dumpsC]]
          rfl
        | false =>
          rw [show dumpsC (JValue.jbool false) ++ rest =
            'f' :: 'a' :: 'l' :: 's' :: 'e' :: rest from by simp [dumpsC]]
          rfl
      | jint n =>
        obtain ⟨c, cs, hic, hstart⟩ := intChars_head n
        rw [show dumpsC (JValue.jint n) ++ rest = c :: (cs ++ rest) from
          by simp [dumpsC, hic]]
        rw [dread_succ_num fuel c _ hstart, ← List.cons_append, ← hic]
        exact dreadNum_intChars n rest hrest
      | jfloat q =>
        obtain ⟨c, cs, hic, hstart⟩ := intChars_head q.num
        have hout : floatChars q ++ rest = c :: (cs ++ ('/' :: natDigs q.den ++ rest)) := by
          rw [floatChars, hic]
          simp [List.cons_append, List.append_assoc]
        rw [show dumpsC (JValue.jfloat q) ++ rest =
            c :: (cs ++ ('/' :: natDigs q.den ++ rest)) from by
          rw [show dumpsC (JValue.jfloat q) = floatChars q from by simp [dumpsC]]
          exact hout]
        rw [dread_succ_num fuel c _ hstart, ← hout]
        exact dreadNum_floatChars q rest hrest
      | jstr s =>
        obtain ⟨l⟩ := s
        rw [show dumpsC (JValue.jstr ⟨l⟩) ++ rest = '"' :: (escChars l ++ '"' :: rest) from
          by simp [dumpsC, List.append_assoc]]
        rw [dread_succ_str, dreadStr_escChars]
        rfl
      | jlist xs =>
        cases xs with
        | nil =>
          rw [show dumpsC (JValue.jlist []) ++ rest = '[' :: ']' :: rest from
            by simp [dumpsC, dumpsList]]
          rfl
        | cons x xs =>
          have hsz : sizeOf (x :: xs) ≤ fuel := by
            rw [JValue.jlist.sizeOf_spec] at hs
            omega
          obtain ⟨c, cs, hdc, hne1, _⟩ := dumpsC_head x
          obtain ⟨Y, hY⟩ : ∃ Y, dumpsList (x :: xs) ++ ']' :: rest = c :: Y := by
            cases xs with
            | nil => exact ⟨cs ++ ']' :: rest, by simp [dumpsList, hdc]⟩
            | cons y ys =>
              exact ⟨cs ++ ',' :: ' ' :: (dumpsList (y :: ys) ++ ']' :: rest),
                by simp [dumpsList, hdc, List.cons_append, List.append_assoc]⟩
          rw [show dumpsC (JValue.jlist (x :: xs)) ++ rest =
              '[' :: (dumpsList (x :: xs) ++ ']' :: rest) from by
            simp [dumpsC, List.cons_append, List.append_assoc]]
          rw [hY, dread_succ_list fuel c Y hne1, ← hY,
            ih2 (x :: xs) rest (by simp) hsz]
          rfl
      | jdict kvs =>
        cases kvs with
        | nil =>
          rw [show dumpsC (JValue.jdict []) ++ rest = '\x7b' :: '\x7d' :: rest from
            by simp [dumpsC, dumpsKVs]]
          rfl
        | cons kv kvs =>
          obtain ⟨k, v⟩ := kv
          have hsz : sizeOf ((k, v) :: kvs) ≤ fuel := by
            rw [JValue.jdict.sizeOf_spec] at hs
            omega
          obtain ⟨Y, hY⟩ : ∃ Y, dumpsKVs ((k, v) :: kvs) ++ '\x7d' :: rest = '"' :: Y := by
            cases kvs with
            | nil =>
              exact ⟨escChars k.data ++ '"' :: ':' :: ' ' :: (dumpsC v ++ '\x7d' :: rest),
                by simp [dumpsKVs, renderKey, List.cons_append, List.append_assoc]⟩
            | cons p ps =>
              exact ⟨escChars k.data ++ '"' :: ':' :: ' ' ::
                  (dumpsC v ++ ',' :: ' ' :: (dumpsKVs (p :: ps) ++ '\x7d' :: rest)),
                by simp [dumpsKVs, renderKey, List.cons_append, List.append_assoc]⟩
          rw [show dumpsC (JValue.jdict ((k, v) :: kvs)) ++ rest =
              '\x7b' :: (dumpsKVs ((k, v) :: kvs) ++ '\x7d' :: rest) from by
            simp [dumpsC, List.cons_append, List.append_assoc]]
          rw [hY, dread_succ_dict fuel '"' Y (by decide), ← hY,
            ih3 ((k, v) :: kvs) rest (by simp) hsz]
          rfl
    · intro xs rest hne hs
      cases xs with
      | nil => exact absurd rfl hne
      | cons x xs =>
        obtain ⟨hx, hxs⟩ := sz_cons_j x xs fuel hs
        cases xs with
        | nil =>
          have h1 := ih1 x (']' :: rest) hx (Or.inr (Or.inl rfl))
          rw [show dumpsList [x] ++ ']' :: rest = dumpsC x ++ ']' :: rest from
            by simp [dumpsList]]
          rw [dreadElems_succ]
          unfold dreadElemsStep
          rw [h1]
          rfl
        | cons y ys =>
          have h1 := ih1 x (',' :: ' ' :: (dumpsList (y :: ys) ++ ']' :: rest)) hx
            (Or.inl rfl)
          have h2 := ih2 (y :: ys) rest (by simp) hxs
          rw [show dumpsList (x :: y :: ys) ++ ']' :: rest =
              dumpsC x ++ (',' :: ' ' :: (dumpsList (y :: ys) ++ ']' :: rest)) from by
            simp [dumpsList, List.cons_append, List.append_assoc]]
          rw [dreadElems_succ]
          have hstep : dreadElemsStep (dread fuel) (dreadElems fuel)
              (dumpsC x ++ (',' :: ' ' :: (dumpsList (y :: ys) ++ ']' :: rest))) =
              elemsConsRes x (dreadElems fuel (dumpsList (y :: ys) ++ ']' :: rest)) := by
            unfold dreadElemsStep
            rw [h1]
            rfl
          rw [hstep, h2]
          rfl
    · intro kvs rest hne hs
      cases kvs with
      | nil => exact absurd rfl hne
      | cons kv kvs =>
        obtain ⟨k, v⟩ := kv
        obtain ⟨hv, hkvs⟩ := sz_cons_kv k v kvs fuel hs
        obtain ⟨kl⟩ := k
        cases kvs with
        | nil =>
          have h1 := ih1 v ('\x7d' :: rest) hv (Or.inr (Or.inr rfl))
          rw [show dumpsKVs [(⟨kl⟩, v)] ++ '\x7d' :: rest =
              '"' :: (escChars kl ++ '"' :: (':' :: ' ' :: (dumpsC v ++ '\x7d' :: rest))) from by
            simp [dumpsKVs, renderKey, List.cons_append, List.append_assoc]]
          rw [dreadMembers_succ]
          have hstep : dreadMembersStep (dread fuel) (dreadMembers fuel)
              ('"' :: (escChars kl ++ '"' :: (':' :: ' ' :: (dumpsC v ++ '\x7d' :: rest)))) =
              memberTail kl (dreadMembers fuel)
                (dread fuel (dumpsC v ++ '\x7d' :: rest)) := by
            simp only [dreadMembersStep, dreadStr_escChars]
          rw [hstep, h1]
          rfl
        | cons p ps =>
          have h1 := ih1 v (',' :: ' ' :: (dumpsKVs (p :: ps) ++ '\x7d' :: rest)) hv
            (Or.inl rfl)
          have h2 := ih3 (p :: ps) rest (by simp) hkvs
          rw [show dumpsKVs ((⟨kl⟩, v) :: p :: ps) ++ '\x7d' :: rest =
              '"' :: (escChars kl ++ '"' :: (':' :: ' ' ::
                (dumpsC v ++ (',' :: ' ' :: (dumpsKVs (p :: ps) ++ '\x7d' :: rest))))) from by
            simp [dumpsKVs, renderKey, List.cons_append, List.append_assoc]]
          rw [dreadMembers_succ]
          have hstep : dreadMembersStep (dread fuel) (dreadMembers fuel)
              ('"' :: (escChars kl ++ '"' :: (':' :: ' ' ::
                (dumpsC v ++ (',' :: ' ' :: (dumpsKVs (p :: ps) ++ '\x7d' :: rest)))))) =
              memberTail kl (dreadMembers fuel)
                (dread fuel (dumpsC v ++ (',' :: ' ' ::
                  (dumpsKVs (p :: ps) ++ '\x7d' :: rest)))) := by
            simp only [dreadMembersStep, dreadStr_escChars]
          rw [hstep, h1]
          have hstep2 : memberTail kl (dreadMembers fuel)
              (some (v, ',' :: ' ' :: (dumpsKVs (p :: ps) ++ '\x7d' :: rest))) =
              membersConsRes kl v
                (dreadMembers fuel (dumpsKVs (p :: ps) ++ '\x7d' :: rest)) := rfl
          rw [hstep2, h2]
          rfl

theorem dumpsC_inj (a b : JValue) (h : dumpsC a = dumpsC b) : a = b := by
  have ha := (dread_dumps (max (sizeOf a) (sizeOf b))).1 a [] (le_max_left _ _) trivial
  have hb := (dread_dumps (max (sizeOf a) (sizeOf b))).1 b [] (le_max_right _ _) trivial
  rw [h] at ha
  rw [ha] at hb
  simpa using hb

/-! ### Claim C9: `Actions._sort_dicts_and_lists`

`sorted(list)` raises `TypeError` exactly when two elements at distinct
positions are incomparable: a successful comparison never bridges two
comparability classes, so a comparison sort succeeds iff every such pair is
comparable, which is what `allCompB` tests.  Python dict keys are unique;
the embedding's `jdict` allows duplicate keys, on which the model keeps all
entries (stably sorted by key), coinciding with the source on every
representable (duplicate-free) dict.  `json.dumps` cannot raise `KeyError`,
so the dead `except KeyError: str(k)` arm of the fallback is not modelled. -/

def pltB (a b : JValue) : Bool :=
  match cltE (canon a) (canon b) with
  | .ok t => t
  | .error _ => false

def compat (a b : JValue) : Bool := (cltE (canon a) (canon b)).isOk

def allCompB : List JValue → Bool
  | [] => true
  | x :: xs => xs.all (fun y => compat x y) && allCompB xs

def upsert (key : List Char) (v : JValue) :
    List (List Char × JValue) → List (List Char × JValue)
  | [] => [(key, v)]
  | (k2, w) :: rest =>
    if k2 = key then (k2, v) :: rest else (k2, w) :: upsert key v rest

def buildMap (l : List JValue) : List (List Char × JValue) :=
  l.foldl (fun m k => upsert (dumpsC k) k m) []

def lookupL (key : List Char) : List (List Char × JValue) → Option JValue
  | [] => none
  | (k2, w) :: rest => if k2 = key then some w else lookupL key rest

def dedupDumps (xs : List JValue) : List JValue :=
  (pisort charsLtB ((buildMap xs).map Prod.fst)).filterMap
    (fun k => lookupL k (buildMap xs))

def sortValue : JValue → JValue
  | .jdict kvs =>
    .jdict (pisort (fun a b => strLtS a.1 b.1)
      (kvs.attach.map (fun p => (p.1.1, sortValue p.1.2))))
  | .jlist xs =>
    let ys := xs.attach.map (fun p => sortValue p.1)
    .jlist (if allCompB ys then pisort pltB ys else dedupDumps ys)
  | v => v
termination_by v => sizeOf v
decreasing_by
  · have h1 := List.sizeOf_lt_of_mem p.2
    have h2 : sizeOf p.1.2 < sizeOf p.1 := by
      obtain ⟨x, hx⟩ := p
      obtain ⟨a, b⟩ := x
      simp
    simp
    omega
  · have := List.sizeOf_lt_of_mem p.2
    simp
    omega

theorem sortValue_jdict (kvs : List (String × JValue)) :
    sortValue (.jdict kvs) = .jdict (pisort (fun a b => strLtS a.1 b.1)
      (kvs.map (fun p => (p.1, sortValue p.2)))) := by
  rw [sortValue]
  rw [List.attach_map_coe kvs (fun p => (p.1, sortValue p.2))]

theorem sortValue_jlist (xs : List JValue) :
    sortValue (.jlist xs) =
      .jlist (if allCompB (xs.map sortValue) then pisort pltB (xs.map sortValue)
      else dedupDumps (xs.map sortValue)) := by
  rw [sortValue]
  simp [List.attach_map_val]

theorem cltE_total_aux :
    ∀ n, ∀ a b : CV, sizeOf a ≤ n → cltE a b = .ok false →
      cltE b a = .ok true ∨ a = b := by
  intro n
  induction n with
  | zero =>
    intro a b h
    cases a <;> simp at h
  | succ n ih =>
    intro a b ha h
    have hlist : ∀ (xs ys : List CV), (∀ x ∈ xs, sizeOf x ≤ n) →
        clexE xs ys = .ok false → clexE ys xs = .ok true ∨ xs = ys := by
      intro xs
      induction xs with
      | nil =>
        intro ys _ hxy
        cases ys with
        | nil => exact Or.inr rfl
        | cons y ys => simp [clexE] at hxy
      | cons x xs ihx =>
        intro ys hx hxy
        cases ys with
        | nil => exact Or.inl (by simp [clexE])
        | cons y ys =>
          simp only [clexE] at hxy ⊢
          by_cases heq : x == y
          · have hxeq : x = y := by simpa using heq
            subst hxeq
            simp only [beq_self_eq_true, if_true] at hxy ⊢
            rcases ihx ys (fun z hz => hx z (by simp [hz])) hxy with h2 | h2
            · exact Or.inl h2
            · exact Or.inr (by rw [h2])
          · have hne : ¬ x = y := by simpa using heq
            have heqf : (x == y) = false := beq_eq_false_iff_ne.mpr hne
            have heq2 : (y == x) = false :=
              beq_eq_false_iff_ne.mpr (fun hc => hne hc.symm)
            simp only [heqf, heq2, Bool.false_eq_true, if_false] at hxy ⊢
            rcases ih x y (hx x (by simp)) hxy with h2 | h2
            · exact Or.inl h2
            · exact absurd h2 hne
    cases a with
    | cnull => simp [cltE] at h
    | cnum q =>
      cases b with
      | cnum r =>
        simp only [cltE, Except.ok.injEq, decide_eq_false_iff_not] at h
        rcases lt_or_eq_of_le (not_lt.mp h) with h2 | h2
        · exact Or.inl (by simp [cltE, h2])
        · exact Or.inr (by rw [h2])
      | cnull => simp [cltE] at h
      | cstr s => simp [cltE] at h
      | clist ys => simp [cltE] at h
      | cdict kvs => simp [cltE] at h
    | cstr s =>
      cases b with
      | cstr t =>
        simp only [cltE, Except.ok.injEq] at h
        cases hb : strLtS t s with
        | true => exact Or.inl (by simp [cltE, hb])
        | false => exact Or.inr (by rw [strLtS_total_eq s t h hb])
      | cnull => simp [cltE] at h
      | cnum r => simp [cltE] at h
      | clist ys => simp [cltE] at h
      | cdict kvs => simp [cltE] at h
    | clist xs =>
      cases b with
      | clist ys =>
        simp only [cltE] at h ⊢
        have hsz : ∀ z ∈ xs, sizeOf z ≤ n := by
          intro z hz
          have h1 : sizeOf z < sizeOf xs := List.sizeOf_lt_of_mem hz
          have h2 : sizeOf (CV.clist xs) = 1 + sizeOf xs := by simp
          omega
        rcases hlist xs ys hsz h with h2 | h2
        · exact Or.inl h2
        · exact Or.inr (by rw [h2])
      | cnull => simp [cltE] at h
      | cnum r => simp [cltE] at h
      | cstr s => simp [cltE] at h
      | cdict kvs => simp [cltE] at h
    | cdict kvs => simp [cltE] at h

theorem cltE_total (a b : CV) (h : cltE a b = .ok false) :
    cltE b a = .ok true ∨ a = b :=
  cltE_total_aux (sizeOf a) a b (Nat.le_refl _) h

theorem compat_symm_t (a b : JValue) (h : compat a b = true) : compat b a = true := by
  rw [compat] at h ⊢
  exact cltE_defsym _ _ h

theorem pltB_true_iff (a b : JValue) :
    pltB a b = true ↔ cltE (canon a) (canon b) = .ok true := by
  rw [pltB]
  cases h : cltE (canon a) (canon b) with
  | ok t => cases t <;> simp
  | error e => simp

theorem pltB_false_of_ok (a b : JValue) (hc : compat a b = true)
    (h : pltB a b = false) : cltE (canon a) (canon b) = .ok false := by
  rw [pltB] at h
  rw [compat] at hc
  cases hcl : cltE (canon a) (canon b) with
  | ok t =>
    rw [hcl] at h
    simp at h
    rw [h]
  | error e =>
    rw [hcl] at hc
    simp [Except.isOk, Except.toBool] at hc

theorem pltB_asym (a b : JValue) (h : pltB a b = true) : pltB b a = false := by
  rw [pltB_true_iff] at h
  have := cltE_asym _ _ h
  rw [pltB, this]

theorem allCompB_iff (l : List JValue) :
    allCompB l = true ↔ l.Pairwise (fun a b => compat a b = true) := by
  induction l with
  | nil => simp [allCompB]
  | cons x xs ih =>
    simp [allCompB, List.pairwise_cons, ih, List.all_eq_true]

theorem allCompB_false_witness (l : List JValue) (h : allCompB l = false) :
    ∃ p q, p ∈ l ∧ q ∈ l ∧ compat p q = false := by
  induction l with
  | nil => simp [allCompB] at h
  | cons x xs ih =>
    rw [allCompB, Bool.and_eq_false_iff] at h
    rcases h with h | h
    · obtain ⟨y, hy, hcy⟩ : ∃ y ∈ xs, compat x y = false := by
        by_contra hc
        push_neg at hc
        have : xs.all (fun y => compat x y) = true := by
          rw [List.all_eq_true]
          intro y hy
          cases hb : compat x y with
          | true => rfl
          | false => exact absurd hb (hc y hy)
        rw [this] at h
        cases h
      exact ⟨x, y, by simp, by simp [hy], hcy⟩
    · obtain ⟨p, q, hp, hq, hpq⟩ := ih h
      exact ⟨p, q, by simp [hp], by simp [hq], hpq⟩

theorem map_fix (f : α → α) : ∀ l : List α, (∀ x ∈ l, f x = x) → l.map f = l := by
  intro l
  induction l with
  | nil => intro _; rfl
  | cons x xs ih =>
    intro h
    simp only [List.map_cons, h x (by simp), List.cons.injEq, true_and]
    exact ih (fun z hz => h z (by simp [hz]))

theorem pisort_single (lt : α → α → Bool) (z : α) : pisort lt [z] = [z] := rfl

instance : Inhabited JValue := ⟨.jnull⟩

instance : Nonempty (List Char × JValue) := ⟨([], .jnull)⟩

theorem upsert_keys (key : List Char) (v : JValue) :
    ∀ m : List (List Char × JValue),
      (upsert key v m).map Prod.fst =
        (if key ∈ m.map Prod.fst then m.map Prod.fst
        else m.map Prod.fst ++ [key]) := by
  intro m
  induction m with
  | nil => simp [upsert]
  | cons p m ih =>
    obtain ⟨k2, w⟩ := p
    by_cases h : k2 = key
    · subst h
      simp [upsert]
    · have hne : ¬(key = k2) := fun hc => h hc.symm
      simp only [upsert, h, if_false, List.map_cons, ih]
      by_cases h2 : key ∈ m.map Prod.fst
      · simp [h2, hne]
      · simp [h2, hne]

theorem upsert_mem_src (key : List Char) (v : JValue) :
    ∀ m, ∀ p ∈ upsert key v m, p ∈ m ∨ p = (key, v) := by
  intro m
  induction m with
  | nil => simp [upsert]
  | cons q m ih =>
    obtain ⟨k2, w⟩ := q
    intro p hp
    by_cases h : k2 = key
    · subst h
      rw [upsert, if_pos rfl] at hp
      rcases List.mem_cons.mp hp with h2 | h2
      · exact Or.inr (by rw [h2])
      · exact Or.inl (by simp [h2])
    · rw [upsert, if_neg h] at hp
      rcases List.mem_cons.mp hp with h2 | h2
      · exact Or.inl (by simp [h2])
      · rcases ih p h2 with h3 | h3
        · exact Or.inl (by simp [h3])
        · exact Or.inr h3

theorem upsert_not_mem (key : List Char) (v : JValue) :
    ∀ m, key ∉ m.map Prod.fst → upsert key v m = m ++ [(key, v)] := by
  intro m
  induction m with
  | nil => intro _; rfl
  | cons q m ih =>
    obtain ⟨k2, w⟩ := q
    intro h
    have h1 : ¬(k2 = key) := by
      intro hc
      exact h (by simp [hc])
    rw [upsert, if_neg h1, List.cons_append, ih (fun hc => h (by simp [hc]))]

theorem lookupL_some_mem (key : List Char) :
    ∀ m v, lookupL key m = some v → (key, v) ∈ m := by
  intro m
  induction m with
  | nil => intro v h; simp [lookupL] at h
  | cons q m ih =>
    obtain ⟨k2, w⟩ := q
    intro v h
    by_cases h2 : k2 = key
    · subst h2
      rw [lookupL, if_pos rfl] at h
      have : w = v := by simpa using h
      subst this
      simp
    · rw [lookupL, if_neg h2] at h
      exact List.mem_cons.mpr (Or.inr (ih v h))

theorem lookupL_mem_keys (key : List Char) :
    ∀ m, key ∈ m.map Prod.fst → ∃ v, lookupL key m = some v := by
  intro m
  induction m with
  | nil => intro h; simp at h
  | cons q m ih =>
    obtain ⟨k2, w⟩ := q
    intro h
    by_cases h2 : k2 = key
    · exact ⟨w, by rw [lookupL, if_pos h2]⟩
    · have h3 : key ∈ m.map Prod.fst := by
        rcases (by simpa using h : key = k2 ∨ key ∈ m.map Prod.fst) with h4 | h4
        · exact absurd h4.symm h2
        · exact h4
      obtain ⟨v, hv⟩ := ih h3
      exact ⟨v, by rw [lookupL, if_neg h2]; exact hv⟩

theorem buildMap_go_spec (l : List JValue) :
    ∀ m0 : List (List Char × JValue),
      (∀ p ∈ m0, dumpsC p.2 = p.1) →
      ((m0.map Prod.fst).Nodup) →
      (∀ p ∈ l.foldl (fun m k => upsert (dumpsC k) k m) m0,
        dumpsC p.2 = p.1 ∧ (p ∈ m0 ∨ p.2 ∈ l)) ∧
      (((l.foldl (fun m k => upsert (dumpsC k) k m) m0).map Prod.fst).Nodup) ∧
      (∀ v ∈ l, dumpsC v ∈
        (l.foldl (fun m k => upsert (dumpsC k) k m) m0).map Prod.fst) ∧
      (∀ k ∈ m0.map Prod.fst, k ∈
        (l.foldl (fun m k => upsert (dumpsC k) k m) m0).map Prod.fst) := by
  induction l with
  | nil =>
    intro m0 hwf hnd
    refine ⟨fun p hp => ⟨hwf p hp, Or.inl hp⟩, hnd, by simp, fun k hk => hk⟩
  | cons x l ih =>
    intro m0 hwf hnd
    have hwf1 : ∀ p ∈ upsert (dumpsC x) x m0, dumpsC p.2 = p.1 := by
      intro p hp
      rcases upsert_mem_src (dumpsC x) x m0 p hp with h | h
      · exact hwf p h
      · rw [h]
    have hnd1 : ((upsert (dumpsC x) x m0).map Prod.fst).Nodup := by
      rw [upsert_keys]
      by_cases h : dumpsC x ∈ m0.map Prod.fst
      · simpa [h] using hnd
      · simp only [h, if_false]
        rw [List.nodup_append]
        exact ⟨hnd, List.nodup_singleton _, by simpa using h⟩
    have hkey1 : dumpsC x ∈ (upsert (dumpsC x) x m0).map Prod.fst := by
      rw [upsert_keys]
      by_cases h : dumpsC x ∈ m0.map Prod.fst
      · simpa [h] using h
      · simp [h]
    have hkeep : ∀ k ∈ m0.map Prod.fst, k ∈ (upsert (dumpsC x) x m0).map Prod.fst := by
      intro k hk
      rw [upsert_keys]
      by_cases h : dumpsC x ∈ m0.map Prod.fst
      · simpa [h] using hk
      · simp [h, hk]
    obtain ⟨ih1, ih2, ih3, ih4⟩ := ih (upsert (dumpsC x) x m0) hwf1 hnd1
    rw [List.foldl_cons]
    refine ⟨?_, ih2, ?_, ?_⟩
    · intro p hp
      obtain ⟨hpd, hpm⟩ := ih1 p hp
      refine ⟨hpd, ?_⟩
      rcases hpm with h | h
      · rcases upsert_mem_src (dumpsC x) x m0 p h with h2 | h2
        · exact Or.inl h2
        · exact Or.inr (by rw [h2]; simp)
      · exact Or.inr (by simp [h])
    · intro v hv
      rcases List.mem_cons.mp hv with h | h
      · subst h
        exact ih4 _ hkey1
      · exact ih3 v h
    · intro k hk
      exact ih4 k (hkeep k hk)

theorem filterMap_map_section (f : List Char → Option JValue)
    (g : JValue → List Char) :
    ∀ K : List (List Char), (∀ k ∈ K, ∃ v, f k = some v ∧ g v = k) →
      (K.filterMap f).map g = K := by
  intro K
  induction K with
  | nil => intro _; rfl
  | cons k K ih =>
    intro h
    obtain ⟨v, hv, hgv⟩ := h k (by simp)
    simp only [List.filterMap_cons, hv, List.map_cons, hgv, List.cons.injEq, true_and]
    exact ih (fun k2 hk2 => h k2 (by simp [hk2]))

theorem dedupDumps_spec (l : List JValue) :
    (∀ v, v ∈ dedupDumps l ↔ v ∈ l) ∧
    (((dedupDumps l).map dumpsC).Nodup) ∧
    ((dedupDumps l).map dumpsC).Pairwise (fun a b => charsLtB b a = false) := by
  obtain ⟨hwf, hnd, hcov, _⟩ := buildMap_go_spec l [] (by simp) (by simp)
  have hKperm : (pisort charsLtB ((buildMap l).map Prod.fst)).Perm
      ((buildMap l).map Prod.fst) := pisort_perm _ _
  have hKnd : (pisort charsLtB ((buildMap l).map Prod.fst)).Nodup :=
    hKperm.nodup_iff.mpr hnd
  have hKsorted : (pisort charsLtB ((buildMap l).map Prod.fst)).Pairwise
      (fun a b => charsLtB b a = false) :=
    pisort_sorted charsLtB (fun _ => True)
      (fun a _ b _ h => charsLtB_asymm a b h)
      (fun a _ b _ c _ h1 h2 => charsLtB_trans a b c h1 h2)
      _ (by simp)
  have hsec : ∀ k ∈ pisort charsLtB ((buildMap l).map Prod.fst),
      ∃ v, lookupL k (buildMap l) = some v ∧ dumpsC v = k := by
    intro k hk
    obtain ⟨v, hv⟩ := lookupL_mem_keys k (buildMap l) (hKperm.mem_iff.mp hk)
    exact ⟨v, hv, (hwf _ (lookupL_some_mem k (buildMap l) v hv)).1⟩
  have hZmap : (dedupDumps l).map dumpsC =
      pisort charsLtB ((buildMap l).map Prod.fst) := by
    rw [dedupDumps]
    exact filterMap_map_section _ dumpsC _ hsec
  refine ⟨?_, by rw [hZmap]; exact hKnd, by rw [hZmap]; exact hKsorted⟩
  intro v
  constructor
  · intro hv
    rw [dedupDumps] at hv
    obtain ⟨k, hk, hlk⟩ := List.mem_filterMap.mp hv
    have := (hwf _ (lookupL_some_mem k (buildMap l) v hlk)).2
    rcases this with h | h
    · simp at h
    · exact h
  · intro hv
    have hkey := hcov v hv
    obtain ⟨w, hw⟩ := lookupL_mem_keys _ (buildMap l) hkey
    have hwk : dumpsC w = dumpsC v :=
      (hwf _ (lookupL_some_mem _ (buildMap l) w hw)).1
    have hweq : w = v := dumpsC_inj _ _ hwk
    subst hweq
    rw [dedupDumps]
    exact List.mem_filterMap.mpr ⟨dumpsC w, hKperm.mem_iff.mpr hkey, hw⟩

theorem buildMap_pairing (zs : List JValue) (hnd : (zs.map dumpsC).Nodup) :
    buildMap zs = zs.map (fun v => (dumpsC v, v)) := by
  suffices h : ∀ zs : List JValue, ∀ m0 : List (List Char × JValue),
      (∀ v ∈ zs, (dumpsC v) ∉ m0.map Prod.fst) → ((zs.map dumpsC).Nodup) →
      zs.foldl (fun m k => upsert (dumpsC k) k m) m0 =
        m0 ++ zs.map (fun v => (dumpsC v, v)) by
    have := h zs [] (by simp) hnd
    rw [buildMap, this]
    simp
  intro zs
  induction zs with
  | nil => intro m0 _ _; simp
  | cons x zs ih =>
    intro m0 hdisj hnd2
    rw [List.foldl_cons, upsert_not_mem _ _ m0 (hdisj x (by simp))]
    rw [ih (m0 ++ [(dumpsC x, x)]) ?hdisj ?hnd3]
    · simp
    case hdisj =>
      intro v hv
      simp only [List.map_append, List.mem_append]
      push_neg
      refine ⟨hdisj v (by simp [hv]), ?_⟩
      have hx : dumpsC v ≠ dumpsC x := by
        rw [List.map_cons, List.nodup_cons] at hnd2
        intro hc
        exact hnd2.1 (by rw [← hc]; exact List.mem_map.mpr ⟨v, hv, rfl⟩)
      simpa using hx
    case hnd3 =>
      rw [List.map_cons, List.nodup_cons] at hnd2
      exact hnd2.2

theorem filterMap_lookup_self (zs : List JValue) (big : List (List Char × JValue))
    (h : ∀ v ∈ zs, lookupL (dumpsC v) big = some v) :
    (zs.map dumpsC).filterMap (fun k => lookupL k big) = zs := by
  induction zs with
  | nil => rfl
  | cons v zs ih =>
    simp only [List.map_cons, List.filterMap_cons, h v (by simp), List.cons.injEq, true_and]
    exact ih (fun w hw => h w (by simp [hw]))

theorem lookupL_pairing (zs : List JValue) (hnd : (zs.map dumpsC).Nodup)
    (v : JValue) (hv : v ∈ zs) :
    lookupL (dumpsC v) (zs.map (fun w => (dumpsC w, w))) = some v := by
  induction zs with
  | nil => cases hv
  | cons w zs ih =>
    simp only [List.map_cons, lookupL]
    by_cases h : dumpsC w = dumpsC v
    · have hweq : w = v := dumpsC_inj _ _ h
      subst hweq
      simp
    · rcases List.mem_cons.mp hv with h2 | h2
      · exact absurd (by rw [h2]) h
      · rw [if_neg h]
        rw [List.map_cons, List.nodup_cons] at hnd
        exact ih hnd.2 h2

theorem dedupDumps_fix (zs : List JValue) (hnd : (zs.map dumpsC).Nodup)
    (hsorted : (zs.map dumpsC).Pairwise (fun a b => charsLtB b a = false)) :
    dedupDumps zs = zs := by
  rw [dedupDumps, buildMap_pairing zs hnd]
  have hkeys : (zs.map (fun v => (dumpsC v, v))).map Prod.fst = zs.map dumpsC := by
    rw [List.map_map]
    rfl
  rw [hkeys, pisort_fix charsLtB _ hsorted]
  exact filterMap_lookup_self zs _ (fun v hv => lookupL_pairing zs hnd v hv)

theorem pairwise_mem_symm (R : α → α → Prop) (hsymm : ∀ a b, R a b → R b a)
    (l : List α) (h : l.Pairwise R) :
    ∀ a ∈ l, ∀ b ∈ l, a ≠ b → R a b := by
  induction l with
  | nil => simp
  | cons x xs ih =>
    intro a ha b hb hne
    obtain ⟨hx, hxs⟩ := List.pairwise_cons.mp h
    rcases List.mem_cons.mp ha with h1 | h1
    · rcases List.mem_cons.mp hb with h2 | h2
      · subst h1
        subst h2
        exact absurd rfl hne
      · subst h1
        exact hx b h2
    · rcases List.mem_cons.mp hb with h2 | h2
      · subst h2
        exact hsymm _ _ (hx a h1)
      · exact ih hxs a h1 b h2 hne

theorem sizeOf_val_lt_jdict (kvs : List (String × JValue)) (q : String × JValue)
    (hq : q ∈ kvs) : sizeOf q.2 < sizeOf (JValue.jdict kvs) := by
  have h1 := List.sizeOf_lt_of_mem hq
  have h2 : sizeOf q.2 < sizeOf q := by
    obtain ⟨a, b⟩ := q
    simp
  rw [JValue.jdict.sizeOf_spec]
  omega

theorem sizeOf_mem_lt_jlist (xs : List JValue) (x : JValue) (hx : x ∈ xs) :
    sizeOf x < sizeOf (JValue.jlist xs) := by
  have h1 := List.sizeOf_lt_of_mem hx
  rw [JValue.jlist.sizeOf_spec]
  omega

theorem sortValue_idem_aux :
    ∀ n, ∀ v : JValue, sizeOf v ≤ n → sortValue (sortValue v) = sortValue v := by
  intro n
  induction n with
  | zero =>
    intro v h
    have := jv_sizeOf_pos v
    omega
  | succ n ih =>
    intro v hv
    cases v with
    | jnull => simp [sortValue]
    | jbool b => simp [sortValue]
    | jint m => simp [sortValue]
    | jfloat q => simp [sortValue]
    | jstr s => simp [sortValue]
    | jdict kvs =>
      rw [sortValue_jdict]
      have hfix : ∀ p ∈ pisort (fun a b : String × JValue => strLtS a.1 b.1)
          (kvs.map (fun p => (p.1, sortValue p.2))),
          (p.1, sortValue p.2) = p := by
        intro p hp
        have hp2 : p ∈ kvs.map (fun p => (p.1, sortValue p.2)) :=
          (pisort_perm _ _).mem_iff.mp hp
        obtain ⟨q, hq, hqe⟩ := List.mem_map.mp hp2
        have hszq : sizeOf q.2 ≤ n := by
          have := sizeOf_val_lt_jdict kvs q hq
          omega
        rw [← hqe]
        show (q.1, sortValue (sortValue q.2)) = (q.1, sortValue q.2)
        rw [ih q.2 hszq]
      rw [sortValue_jdict]
      rw [map_fix _ _ hfix]
      rw [pisort_fix _ _ ?hsorted]
      case hsorted =>
        exact pisort_sorted (fun a b : String × JValue => strLtS a.1 b.1)
          (fun _ => True)
          (fun a _ b _ h => strLtS_asymm _ _ h)
          (fun a _ b _ c _ h1 h2 => strLtS_trans _ _ _ h1 h2) _ (by simp)
    | jlist xs =>
      rw [sortValue_jlist]
      have hysfix : ∀ y ∈ xs.map sortValue, sortValue y = y := by
        intro y hy
        obtain ⟨x, hx, hxe⟩ := List.mem_map.mp hy
        have hszx : sizeOf x ≤ n := by
          have := sizeOf_mem_lt_jlist xs x hx
          omega
        rw [← hxe]
        exact ih x hszx
      by_cases hc : allCompB (xs.map sortValue) = true
      · rw [if_pos hc]
        rw [sortValue_jlist]
        have hZfix : ∀ z ∈ pisort pltB (xs.map sortValue), sortValue z = z := by
          intro z hz
          exact hysfix z ((pisort_perm _ _).mem_iff.mp hz)
        rw [map_fix sortValue _ hZfix]
        have hsymm : Symmetric (fun a b : JValue => compat a b = true) := by
          intro a b h
          exact compat_symm_t a b h
        have hcZ : allCompB (pisort pltB (xs.map sortValue)) = true := by
          rw [allCompB_iff]
          rw [allCompB_iff] at hc
          exact ((pisort_perm pltB (xs.map sortValue)).pairwise_iff
            (fun h => hsymm h)).mpr hc
        rw [if_pos hcZ]
        have hsorted : (pisort pltB (xs.map sortValue)).Pairwise
            (fun a b => pltB b a = false) := by
          refine pisort_sorted pltB (fun x => x ∈ xs.map sortValue) ?Ha ?Ht _
            (fun x hx => hx)
          case Ha =>
            intro a _ b _ h
            exact pltB_asym a b h
          case Ht =>
            intro a ha b hb c hc2 hab hbc
            by_cases hac : a = c
            · subst hac
              have := pltB_asym a b hab
              rw [this] at hbc
              cases hbc
            · have hcompat : compat a c = true := by
                rw [allCompB_iff] at hc
                exact pairwise_mem_symm _ (fun x y h => compat_symm_t x y h) _
                  hc a ha c hc2 hac
              rw [pltB_true_iff] at hab hbc ⊢
              exact cltE_trans _ _ _ hab hbc hcompat
        rw [pisort_fix pltB _ hsorted]
      · rw [if_neg hc]
        obtain ⟨hmem, hnd, hsorted⟩ := dedupDumps_spec (xs.map sortValue)
        have hZfix : ∀ z ∈ dedupDumps (xs.map sortValue), sortValue z = z := by
          intro z hz
          exact hysfix z ((hmem z).mp hz)
        rw [sortValue_jlist, map_fix sortValue _ hZfix]
        by_cases hc2 : allCompB (dedupDumps (xs.map sortValue)) = true
        · rw [if_pos hc2]
          have hcB : allCompB (xs.map sortValue) = false := by
            cases hb : allCompB (xs.map sortValue) with
            | true => exact absurd hb hc
            | false => rfl
          obtain ⟨p, q, hp, hq, hpq⟩ := allCompB_false_witness _ hcB
          have hpZ : p ∈ dedupDumps (xs.map sortValue) := (hmem p).mpr hp
          have hqZ : q ∈ dedupDumps (xs.map sortValue) := (hmem q).mpr hq
          have hZnd : (dedupDumps (xs.map sortValue)).Nodup := hnd.of_map
          cases hZ : dedupDumps (xs.map sortValue) with
          | nil => rfl
          | cons z1 Z2 =>
            cases Z2 with
            | nil => rw [pisort_single]
            | cons z2 Z3 =>
              exfalso
              rw [allCompB_iff] at hc2
              have hforall := pairwise_mem_symm _ (fun a b h => compat_symm_t a b h)
                _ hc2
              rw [hZ] at hpZ hqZ hZnd hforall
              by_cases hpeq : p = q
              · subst hpeq
                rw [compat] at hpq
                have herr := cltE_self_err (canon p) hpq
                have hz12 : z1 ≠ z2 := by
                  rw [List.nodup_cons] at hZnd
                  intro hcq
                  exact hZnd.1 (by rw [hcq]; simp)
                by_cases hp1 : p = z1
                · have hR := hforall p hpZ z2 (by simp) (by rw [hp1]; exact hz12)
                  have hO := (cltE_err_all (canon p) (canon z2) herr).1
                  rw [compat] at hR
                  rw [hR] at hO
                  cases hO
                · have hR := hforall p hpZ z1 (by simp) hp1
                  have hO := (cltE_err_all (canon p) (canon z1) herr).1
                  rw [compat] at hR
                  rw [hR] at hO
                  cases hO
              · have hR := hforall p hpZ q hqZ hpeq
                rw [hR] at hpq
                cases hpq
        · rw [if_neg hc2]
          rw [dedupDumps_fix _ hnd hsorted]

/-- C9: recursive dict/list sorting is idempotent — for every JSON-like value
(arbitrarily nested dicts, lists and scalars), applying the model of
`_sort_dicts_and_lists` twice yields the same result as applying it once. -/
theorem sort_dicts_and_lists_idempotent (v : JValue) :
    sortValue (sortValue v) = sortValue v :=
  sortValue_idem_aux (sizeOf v) v (Nat.le_refl _)

end LHUB
